import Mathlib

/-!
Verification development for the PureLB address allocator and node agent.

The repository ships the allocator test suite (internal/allocator/allocator_test.go),
the service-event glue (internal/allocator/service.go) and the lbnodeagent
controller.  The allocator core itself (pools, sharing ledger, allocation
operations) is not part of the shipped sources, so it is modelled below from
the specification, constrained by the behaviour that the shipped tests pin
down.  The ingress encoding (service.go) and the node-agent controller are
embedded from the sources directly.
-/

set_option maxHeartbeats 1000000

deriving instance DecidableEq for Except

namespace PureLB

/-- Address family of an IP address: v4 or v6. -/
inductive Family where
  | v4
  | v6
deriving DecidableEq

/-- Number of host bits of an address family (32 for IPv4, 128 for IPv6). -/
def hostLen : Family → Nat
  | .v4 => 32
  | .v6 => 128

/-- A network-layer address: a family together with its numeric value. -/
structure Addr where
  family : Family
  val : Nat
deriving DecidableEq

/-- Transport protocol of a service port. -/
inductive Proto where
  | tcp
  | udp
  | sctp
deriving DecidableEq

/-- A (protocol, port) pair of a service. -/
structure PortKey where
  proto : Proto
  port : Nat
deriving DecidableEq

/-- A CIDR range: family, numeric base address and CIDR length. -/
structure Range where
  family : Family
  base : Nat
  prefixLen : Nat
deriving DecidableEq

/-- Number of addresses of a CIDR range. -/
def rangeSize (r : Range) : Nat := 2 ^ (hostLen r.family - r.prefixLen)

/-- Modelled from the spec (Range.contains): membership of an address in a range.
The repository does not ship the pool sources; the tests fix the semantics. -/
def Range.containsA (r : Range) (a : Addr) : Bool :=
  decide (a.family = r.family ∧ r.base ≤ a.val ∧ a.val < r.base + rangeSize r)

/-- Addresses of a range in ascending numeric order.  Per the shipped tests
(TestPoolAllocation, TestPoolMetrics) every address of the range is usable:
the four addresses of 1.2.3.4/30 are all allocated and its capacity gauge
reads 4, so no network or broadcast endpoint is excluded. -/
def rangeAddrs (r : Range) : List Addr :=
  (List.range (rangeSize r)).map (fun i => ⟨r.family, r.base + i⟩)

/-- Modelled from the spec: a Local pool is one or more CIDR ranges. -/
structure LocalPool where
  ranges : List Range
deriving DecidableEq

/-- Pool membership: some range of the pool holds the address. -/
def LocalPool.containsA (p : LocalPool) (a : Addr) : Bool :=
  p.ranges.any (fun r => r.containsA a)

/-- Addresses of a pool: ranges in declaration order, ascending within a range. -/
def poolAddrs (p : LocalPool) : List Addr := p.ranges.flatMap rangeAddrs

/-- Capacity of a pool: the sum of its range sizes.  The shipped test
TestPoolMetrics fixes the capacity of 1.2.3.4/30 at 4 (the full range size). -/
def capacity (p : LocalPool) : Nat := (p.ranges.map rangeSize).sum

/-- Allocation record of one service: address, pool name, ports, sharing key. -/
structure Alloc where
  ip : Addr
  poolName : String
  ports : List PortKey
  sharingKey : String
deriving DecidableEq

/-- The abstract service object the allocator consumes: identity, optional
cluster-internal family, optional explicit loadbalancer address, optional
desired pool, transport ports and sharing key (empty when absent). -/
structure Svc where
  name : String
  family : Option Family
  lbIP : Option Addr
  desiredPool : Option String
  ports : List PortKey
  sharingKey : String
deriving DecidableEq

/-- The error taxonomy of the allocator boundary. -/
inductive AllocError where
  | outOfAnyPool
  | noSuchPool
  | poolSpecifiedWithAddress
  | familyMismatch
  | portConflict
  | sharingKeyMismatch
  | exhausted
deriving DecidableEq

/-- Allocator state: pools in configuration declaration order, the
service-to-allocation map, and the per-pool in-use and capacity gauges. -/
structure Allocator where
  pools : List (String × LocalPool)
  allocated : List (String × Alloc)
  inUseG : List (String × Nat)
  capG : List (String × Nat)
deriving DecidableEq

/-- Association-list lookup by key. -/
def lookupA {β : Type} (k : String) : List (String × β) → Option β
  | [] => none
  | e :: rest => if e.1 = k then some e.2 else lookupA k rest

/-- Association-list removal of a key. -/
def removeA {β : Type} (k : String) (l : List (String × β)) : List (String × β) :=
  l.filter (fun e => decide (e.1 ≠ k))

/-- Association-list update: remove the key and cons the new binding. -/
def setA {β : Type} (k : String) (v : β) (l : List (String × β)) : List (String × β) :=
  (k, v) :: removeA k l

/-- Ledger entries at an address, excluding the requesting service.  Per the
spec, an idempotent update first subtracts the previous contribution of the
service, so compatibility is always evaluated against the other owners. -/
def othersAt (a : Addr) (svcName : String) (l : List (String × Alloc)) :
    List (String × Alloc) :=
  l.filter (fun e => decide (e.1 ≠ svcName ∧ e.2.ip = a))

/-- Union of the (protocol, port) pairs of a set of ledger entries. -/
def portsOf (l : List (String × Alloc)) : List PortKey := l.flatMap (fun e => e.2.ports)

/-- Modelled from the spec (ledger canAssign): no owners is ok; an empty or
disagreeing sharing key fails with sharing-key-mismatch; an intersection on
(protocol, port) fails with port-conflict; otherwise ok. -/
def canShare (others : List (String × Alloc)) (k : String) (ps : List PortKey) :
    Option AllocError :=
  match others with
  | [] => none
  | o :: rest =>
    if k = "" ∨ o.2.sharingKey ≠ k then some AllocError.sharingKeyMismatch
    else if ∃ q ∈ ps, q ∈ portsOf (o :: rest) then some AllocError.portConflict
    else none

/-- Number of distinct addresses recorded under a pool name. -/
def inUseCount (n : String) (l : List (String × Alloc)) : Nat :=
  ((l.filter (fun e => decide (e.2.poolName = n))).map (fun e => e.2.ip)).toFinset.card

/-- Number of distinct allocated addresses contained in a pool. -/
def heldCard (p : LocalPool) (l : List (String × Alloc)) : Nat :=
  ((l.filter (fun e => p.containsA e.2.ip)).map (fun e => e.2.ip)).toFinset.card

/-- Commit an allocation record for a service: update the map (releasing any
prior allocation of the service atomically) and refresh the in-use gauges of
the affected pools. -/
def commit (svcName : String) (rec : Alloc) (s : Allocator) : Allocator :=
  let l₂ := setA svcName rec s.allocated
  let g₁ := match lookupA svcName s.allocated with
    | some oldRec => setA oldRec.poolName (inUseCount oldRec.poolName l₂) s.inUseG
    | none => s.inUseG
  { s with allocated := l₂, inUseG := setA rec.poolName (inUseCount rec.poolName l₂) g₁ }

/-- Modelled from the spec (Allocator.Unassign): remove the service from the
ledger and the service index; an absent entry is a no-op; always succeeds. -/
def Unassign (svcName : String) (s : Allocator) : Allocator :=
  match lookupA svcName s.allocated with
  | none => s
  | some rec =>
    let l₂ := removeA svcName s.allocated
    { s with allocated := l₂,
             inUseG := setA rec.poolName (inUseCount rec.poolName l₂) s.inUseG }

/-- Name of the first pool (in declaration order) containing an address. -/
def poolFor (pools : List (String × LocalPool)) (a : Addr) : Option String :=
  (pools.find? (fun e => e.2.containsA a)).map (fun e => e.1)

/-- Family agreement check; a missing family constrains nothing. -/
def famOK : Option Family → Addr → Bool
  | none, _ => true
  | some f, a => decide (a.family = f)

/-- An address is available to a service iff the ledger compatibility check
against the other owners passes. -/
def availableB (svcName k : String) (ps : List PortKey)
    (l : List (String × Alloc)) (a : Addr) : Bool :=
  decide (canShare (othersAt a svcName l) k ps = none)

/-- Modelled from the spec (Pool.assignNext): the lowest address of the
requested family that is free or compatibly shared. -/
def assignNext (p : LocalPool) (svcName k : String) (ps : List PortKey)
    (fam : Option Family) (l : List (String × Alloc)) : Option Addr :=
  (poolAddrs p).find? (fun a => famOK fam a && availableB svcName k ps l a)

/-- Modelled from the spec (Allocator.AllocateSpecificIP): demand a particular
address; errors are out-of-any-pool, family-mismatch and the ledger errors. -/
def AllocateSpecificIP (svc : Svc) (a : Addr) (s : Allocator) :
    Except AllocError String × Allocator :=
  match poolFor s.pools a with
  | none => (Except.error AllocError.outOfAnyPool, s)
  | some pname =>
    if famOK svc.family a then
      match canShare (othersAt a svc.name s.allocated) svc.sharingKey svc.ports with
      | some e => (Except.error e, s)
      | none => (Except.ok pname, commit svc.name ⟨a, pname, svc.ports, svc.sharingKey⟩ s)
    else (Except.error AllocError.familyMismatch, s)

/-- Effective family of a request: the cluster-internal family when present,
otherwise the family of the prior allocation of the service (the shipped test
TestPoolAllocation requires a service holding an IPv4 address to fail when
allocating from an IPv6 pool). -/
def effFamily (svc : Svc) (l : List (String × Alloc)) : Option Family :=
  match svc.family with
  | some f => some f
  | none => (lookupA svc.name l).map (fun al => al.ip.family)

/-- Modelled from the spec (Allocator.AllocateFromPool): pick the first free or
compatible address of the named pool; errors are no-such-pool and exhausted. -/
def AllocateFromPool (svc : Svc) (poolName : String) (s : Allocator) :
    Except AllocError Addr × Allocator :=
  match lookupA poolName s.pools with
  | none => (Except.error AllocError.noSuchPool, s)
  | some p =>
    match assignNext p svc.name svc.sharingKey svc.ports (effFamily svc s.allocated)
        s.allocated with
    | none => (Except.error AllocError.exhausted, s)
    | some a => (Except.ok a, commit svc.name ⟨a, poolName, svc.ports, svc.sharingKey⟩ s)

/-- Keep the first occurrence of every element. -/
def dedupFirst : List String → List String
  | [] => []
  | x :: xs => x :: (dedupFirst xs).filter (fun y => decide (y ≠ x))

/-- Modelled from the spec (AllocateAnyIP pool order): the pool of the prior
allocation (if any), then the pool named default, then the remaining pools in
configuration declaration order. -/
def poolOrder (svc : Svc) (s : Allocator) : List String :=
  let prior : List String := match lookupA svc.name s.allocated with
    | some al => [al.poolName]
    | none => []
  dedupFirst (prior ++ "default" :: s.pools.map (fun e => e.1))

/-- Try pools in order, returning the first success; exhausted when all fail. -/
def tryPools (svc : Svc) (s : Allocator) :
    List String → Except AllocError (String × Addr) × Allocator
  | [] => (Except.error AllocError.exhausted, s)
  | n :: rest =>
    match AllocateFromPool svc n s with
    | (Except.ok a, s₂) => (Except.ok (n, a), s₂)
    | (Except.error _, _) => tryPools svc s rest

/-- Modelled from the spec (Allocator.AllocateAnyIP): an explicit address
behaves as AllocateSpecificIP and rejects a simultaneous desired pool; a
desired pool behaves as AllocateFromPool; otherwise pools are tried in the
poolOrder and the first success wins. -/
def AllocateAnyIP (svc : Svc) (s : Allocator) :
    Except AllocError (String × Addr) × Allocator :=
  match svc.lbIP with
  | some a =>
    match svc.desiredPool with
    | some _ => (Except.error AllocError.poolSpecifiedWithAddress, s)
    | none =>
      match AllocateSpecificIP svc a s with
      | (Except.ok pname, s₂) => (Except.ok (pname, a), s₂)
      | (Except.error e, s₂) => (Except.error e, s₂)
  | none =>
    match svc.desiredPool with
    | some n =>
      match AllocateFromPool svc n s with
      | (Except.ok a, s₂) => (Except.ok (n, a), s₂)
      | (Except.error e, s₂) => (Except.error e, s₂)
    | none => tryPools svc s (poolOrder svc s)

/-- Modelled from the spec (Allocator.NotifyExisting): register an observed
allocation; fails only on containment failure or family mismatch. -/
def NotifyExisting (svc : Svc) (a : Addr) (s : Allocator) :
    Except AllocError String × Allocator :=
  match poolFor s.pools a with
  | none => (Except.error AllocError.outOfAnyPool, s)
  | some pname =>
    if famOK svc.family a then
      (Except.ok pname, commit svc.name ⟨a, pname, svc.ports, svc.sharingKey⟩ s)
    else (Except.error AllocError.familyMismatch, s)

/-- Initial allocator state for a published pool configuration: empty ledger,
zero in-use gauges, capacity gauges set to the pool capacities. -/
def Allocator.init (pools : List (String × LocalPool)) : Allocator :=
  { pools := pools
    allocated := []
    inUseG := pools.map (fun e => (e.1, 0))
    capG := pools.map (fun e => (e.1, capacity e.2)) }

/-- States reachable from an initial state through the assignment operations
and Unassign. -/
inductive Reachable (pools : List (String × LocalPool)) : Allocator → Prop where
  | init : Reachable pools (Allocator.init pools)
  | specific (svc : Svc) (a : Addr) {s : Allocator} :
      Reachable pools s → Reachable pools (AllocateSpecificIP svc a s).2
  | fromPool (svc : Svc) (n : String) {s : Allocator} :
      Reachable pools s → Reachable pools (AllocateFromPool svc n s).2
  | anyIP (svc : Svc) {s : Allocator} :
      Reachable pools s → Reachable pools (AllocateAnyIP svc s).2
  | unassign (svcName : String) {s : Allocator} :
      Reachable pools s → Reachable pools (Unassign svcName s)

/-- Keys of an association list are distinct. -/
def NodupKeys {β : Type} (l : List (String × β)) : Prop := (l.map Prod.fst).Nodup

instance {β : Type} (l : List (String × β)) : Decidable (NodupKeys l) := by
  unfold NodupKeys
  infer_instance

/-- The sharing invariant: two distinct owners of one address agree on a
non-empty sharing key and their (protocol, port) sets are disjoint. -/
def SharingOK (l : List (String × Alloc)) : Prop :=
  ∀ e₁ ∈ l, ∀ e₂ ∈ l, e₁.1 ≠ e₂.1 → e₁.2.ip = e₂.2.ip →
    e₁.2.sharingKey = e₂.2.sharingKey ∧ e₁.2.sharingKey ≠ "" ∧
      ∀ q ∈ e₁.2.ports, q ∉ e₂.2.ports

/-- Every record names the pool that contains its address. -/
def PoolCoherent (pools : List (String × LocalPool)) (l : List (String × Alloc)) : Prop :=
  ∀ e ∈ l, poolFor pools e.2.ip = some e.2.poolName

/-- The in-use gauge of every pool equals the distinct-address count. -/
def GaugeOK (s : Allocator) : Prop :=
  ∀ e ∈ s.pools, lookupA e.1 s.inUseG = some (inUseCount e.1 s.allocated)

/-- Two ranges are disjoint: different families or non-overlapping intervals. -/
def rangeDisj (r₁ r₂ : Range) : Bool :=
  decide (r₁.family ≠ r₂.family ∨ r₁.base + rangeSize r₁ ≤ r₂.base ∨
    r₂.base + rangeSize r₂ ≤ r₁.base)

/-- Two pools are disjoint: all their ranges are pairwise disjoint. -/
def poolDisj (p₁ p₂ : LocalPool) : Bool :=
  p₁.ranges.all (fun r₁ => p₂.ranges.all (fun r₂ => rangeDisj r₁ r₂))

/-- A pool configuration is non-overlapping: pairwise disjoint pools.  The
spec requires every address to lie in the contains() of exactly one pool. -/
def PoolsDisjoint (pools : List (String × LocalPool)) : Prop :=
  List.Pairwise (fun e₁ e₂ => poolDisj e₁.2 e₂.2 = true) pools

instance (pools : List (String × LocalPool)) : Decidable (PoolsDisjoint pools) := by
  unfold PoolsDisjoint
  infer_instance

/-! Association-list lemmas. -/

theorem removeA_cons {β : Type} (k : String) (e : String × β) (l : List (String × β)) :
    removeA k (e :: l) = if e.1 = k then removeA k l else e :: removeA k l := by
  by_cases hek : e.1 = k
  · simp [removeA, List.filter_cons, hek]
  · simp [removeA, List.filter_cons, hek]

theorem mem_removeA {β : Type} {k : String} {l : List (String × β)} {e : String × β} :
    e ∈ removeA k l ↔ e ∈ l ∧ e.1 ≠ k := by
  simp [removeA, List.mem_filter]

theorem mem_setA {β : Type} {k : String} {v : β} {l : List (String × β)} {e : String × β} :
    e ∈ setA k v l ↔ e = (k, v) ∨ (e ∈ l ∧ e.1 ≠ k) := by
  simp [setA, mem_removeA]

theorem lookupA_eq_some_mem {β : Type} {k : String} {l : List (String × β)} {v : β}
    (h : lookupA k l = some v) : (k, v) ∈ l := by
  induction l with
  | nil => simp [lookupA] at h
  | cons e rest ih =>
    by_cases he : e.1 = k
    · simp only [lookupA, if_pos he] at h
      have hev : e = (k, v) := by
        cases e
        simp_all
      rw [← hev]
      exact List.mem_cons_self _ _
    · simp only [lookupA, if_neg he] at h
      exact List.mem_cons_of_mem _ (ih h)

theorem lookupA_eq_none {β : Type} {k : String} {l : List (String × β)} :
    lookupA k l = none ↔ ∀ v : β, (k, v) ∉ l := by
  induction l with
  | nil => simp [lookupA]
  | cons e rest ih =>
    by_cases he : e.1 = k
    · simp only [lookupA, if_pos he]
      constructor
      · intro h
        exact absurd h (by simp)
      · intro h
        exfalso
        apply h e.2
        have hev : e = (k, e.2) := by
          cases e
          simp_all
        rw [← hev]
        exact List.mem_cons_self _ _
    · simp only [lookupA, if_neg he, ih]
      constructor
      · intro h v hv
        rcases List.mem_cons.mp hv with h1 | h1
        · apply he
          rw [← h1]
        · exact h v h1
      · intro h v hv
        exact h v (List.mem_cons_of_mem _ hv)

theorem mem_lookupA_nodup {β : Type} {k : String} {l : List (String × β)} {v : β}
    (hn : NodupKeys l) (he : (k, v) ∈ l) : lookupA k l = some v := by
  induction l with
  | nil => simp at he
  | cons e rest ih =>
    rcases List.mem_cons.mp he with h1 | h1
    · rw [← h1]
      simp [lookupA]
    · have hk : e.1 ≠ k := by
        intro hek
        have hm : k ∈ rest.map Prod.fst := List.mem_map.mpr ⟨(k, v), h1, rfl⟩
        rw [← hek] at hm
        exact (List.nodup_cons.mp hn).1 hm
      simp only [lookupA, if_neg hk]
      exact ih (List.nodup_cons.mp hn).2 h1

theorem keys_inj_nodup {β : Type} {l : List (String × β)} {e₁ e₂ : String × β}
    (hn : NodupKeys l) (h₁ : e₁ ∈ l) (h₂ : e₂ ∈ l) (hk : e₁.1 = e₂.1) : e₁ = e₂ := by
  have v₁ : lookupA e₁.1 l = some e₁.2 := mem_lookupA_nodup hn (by cases e₁; exact h₁)
  have v₂ : lookupA e₂.1 l = some e₂.2 := mem_lookupA_nodup hn (by cases e₂; exact h₂)
  rw [hk] at v₁
  rw [v₂] at v₁
  cases e₁
  cases e₂
  simp_all

theorem lookupA_setA_self {β : Type} (k : String) (v : β) (l : List (String × β)) :
    lookupA k (setA k v l) = some v := by
  simp [setA, lookupA]

theorem lookupA_removeA_ne {β : Type} {k₂ k : String} (h : k₂ ≠ k) (l : List (String × β)) :
    lookupA k₂ (removeA k l) = lookupA k₂ l := by
  induction l with
  | nil => simp [removeA]
  | cons e rest ih =>
    rw [removeA_cons]
    by_cases hek : e.1 = k
    · have hne : ¬ e.1 = k₂ := by
        rw [hek]
        exact fun hh => h hh.symm
      rw [if_pos hek, ih]
      simp [lookupA, hne]
    · rw [if_neg hek]
      by_cases he2 : e.1 = k₂
      · simp [lookupA, he2]
      · simp only [lookupA, if_neg he2]
        exact ih

theorem lookupA_setA_ne {β : Type} {k₂ k : String} (h : k₂ ≠ k) (v : β)
    (l : List (String × β)) : lookupA k₂ (setA k v l) = lookupA k₂ l := by
  have hk : ¬ k = k₂ := fun hh => h hh.symm
  simp only [setA, lookupA, if_neg hk]
  exact lookupA_removeA_ne h l

theorem lookupA_removeA_self {β : Type} (k : String) (l : List (String × β)) :
    lookupA k (removeA k l) = none := by
  rw [lookupA_eq_none]
  intro v hv
  exact (mem_removeA.mp hv).2 rfl

theorem removeA_idem {β : Type} (k : String) (l : List (String × β)) :
    removeA k (removeA k l) = removeA k l := by
  apply List.filter_eq_self.mpr
  intro e he
  simpa using (mem_removeA.mp he).2

theorem removeA_setA_self {β : Type} (k : String) (v : β) (l : List (String × β)) :
    removeA k (setA k v l) = removeA k l := by
  unfold setA
  rw [removeA_cons]
  simp only [if_pos rfl]
  exact removeA_idem k l

theorem setA_idem {β : Type} (k : String) (v : β) (l : List (String × β)) :
    setA k v (setA k v l) = setA k v l := by
  show (k, v) :: removeA k (setA k v l) = setA k v l
  rw [removeA_setA_self]
  rfl

theorem removeA_eq_self {β : Type} {k : String} {l : List (String × β)}
    (h : lookupA k l = none) : removeA k l = l := by
  apply List.filter_eq_self.mpr
  intro e he
  have hnm := (lookupA_eq_none.mp h) e.2
  simp only [decide_eq_true_eq]
  intro hek
  apply hnm
  cases e
  simp_all

theorem nodupKeys_removeA {β : Type} {k : String} {l : List (String × β)}
    (h : NodupKeys l) : NodupKeys (removeA k l) :=
  List.Nodup.sublist ((List.filter_sublist l).map Prod.fst) h

theorem nodupKeys_setA {β : Type} {k : String} {v : β} {l : List (String × β)}
    (h : NodupKeys l) : NodupKeys (setA k v l) := by
  unfold NodupKeys setA
  rw [List.map_cons, List.nodup_cons]
  refine ⟨?_, nodupKeys_removeA h⟩
  intro hk
  rcases List.mem_map.mp hk with ⟨e, he, hek⟩
  exact (mem_removeA.mp he).2 hek

/-! Lemmas about the ledger view othersAt and the distinct-address counts. -/

theorem mem_othersAt {a : Addr} {svcName : String} {l : List (String × Alloc)}
    {e : String × Alloc} :
    e ∈ othersAt a svcName l ↔ e ∈ l ∧ e.1 ≠ svcName ∧ e.2.ip = a := by
  simp [othersAt, List.mem_filter]

theorem othersAt_cons (a : Addr) (svcName : String) (e : String × Alloc)
    (l : List (String × Alloc)) :
    othersAt a svcName (e :: l) =
      if e.1 ≠ svcName ∧ e.2.ip = a then e :: othersAt a svcName l
      else othersAt a svcName l := by
  by_cases hc : e.1 ≠ svcName ∧ e.2.ip = a
  · simp [othersAt, List.filter_cons, hc]
  · simp [othersAt, List.filter_cons, hc]

theorem othersAt_removeA_self (a : Addr) (svcName : String) (l : List (String × Alloc)) :
    othersAt a svcName (removeA svcName l) = othersAt a svcName l := by
  induction l with
  | nil => rfl
  | cons e rest ih =>
    rw [removeA_cons]
    by_cases hek : e.1 = svcName
    · rw [if_pos hek, ih, othersAt_cons]
      have hng : ¬ (e.1 ≠ svcName ∧ e.2.ip = a) := fun hc => hc.1 hek
      rw [if_neg hng]
    · rw [if_neg hek, othersAt_cons, othersAt_cons, ih]

theorem othersAt_setA_self (a : Addr) (svcName : String) (v : Alloc)
    (l : List (String × Alloc)) :
    othersAt a svcName (setA svcName v l) = othersAt a svcName l := by
  unfold setA
  rw [othersAt_cons]
  have hng : ¬ ((svcName, v).1 ≠ svcName ∧ (svcName, v).2.ip = a) := fun hc => hc.1 rfl
  rw [if_neg hng]
  exact othersAt_removeA_self a svcName l

theorem mem_poolIps {n : String} {l : List (String × Alloc)} {x : Addr} :
    x ∈ ((l.filter (fun e => decide (e.2.poolName = n))).map (fun e => e.2.ip)).toFinset ↔
      ∃ e ∈ l, e.2.poolName = n ∧ e.2.ip = x := by
  simp only [List.mem_toFinset, List.mem_map, List.mem_filter, decide_eq_true_eq]
  constructor
  · rintro ⟨e, ⟨he, hp⟩, hx⟩
    exact ⟨e, he, hp, hx⟩
  · rintro ⟨e, he, hp, hx⟩
    exact ⟨e, ⟨he, hp⟩, hx⟩

theorem inUseCount_setA_other {n svcName : String} {rec : Alloc}
    {l : List (String × Alloc)} (hrec : rec.poolName ≠ n)
    (hold : ∀ e ∈ l, e.1 = svcName → e.2.poolName ≠ n) :
    inUseCount n (setA svcName rec l) = inUseCount n l := by
  unfold inUseCount
  congr 1
  apply Finset.ext
  intro x
  rw [mem_poolIps, mem_poolIps]
  constructor
  · rintro ⟨e, he, hp, hx⟩
    rcases mem_setA.mp he with he₁ | ⟨he₁, _⟩
    · exfalso
      apply hrec
      rw [← hp, he₁]
    · exact ⟨e, he₁, hp, hx⟩
  · rintro ⟨e, he, hp, hx⟩
    by_cases hek : e.1 = svcName
    · exact absurd hp (hold e he hek)
    · exact ⟨e, mem_setA.mpr (Or.inr ⟨he, hek⟩), hp, hx⟩

theorem inUseCount_removeA_other {n svcName : String} {l : List (String × Alloc)}
    (hold : ∀ e ∈ l, e.1 = svcName → e.2.poolName ≠ n) :
    inUseCount n (removeA svcName l) = inUseCount n l := by
  unfold inUseCount
  congr 1
  apply Finset.ext
  intro x
  rw [mem_poolIps, mem_poolIps]
  constructor
  · rintro ⟨e, he, hp, hx⟩
    exact ⟨e, (mem_removeA.mp he).1, hp, hx⟩
  · rintro ⟨e, he, hp, hx⟩
    by_cases hek : e.1 = svcName
    · exact absurd hp (hold e he hek)
    · exact ⟨e, mem_removeA.mpr ⟨he, hek⟩, hp, hx⟩

/-! Invariant preservation through commit and Unassign. -/

theorem commit_pools (svcName : String) (rec : Alloc) (s : Allocator) :
    (commit svcName rec s).pools = s.pools := rfl

theorem commit_capG (svcName : String) (rec : Alloc) (s : Allocator) :
    (commit svcName rec s).capG = s.capG := rfl

theorem commit_allocated (svcName : String) (rec : Alloc) (s : Allocator) :
    (commit svcName rec s).allocated = setA svcName rec s.allocated := rfl

theorem gaugeOK_commit {s : Allocator} (hn : NodupKeys s.allocated) (hg : GaugeOK s)
    (svcName : String) (rec : Alloc) : GaugeOK (commit svcName rec s) := by
  intro e he
  rw [commit_pools] at he
  rw [commit_allocated]
  cases hold : lookupA svcName s.allocated with
  | none =>
    have hgG : (commit svcName rec s).inUseG =
        setA rec.poolName (inUseCount rec.poolName (setA svcName rec s.allocated))
          s.inUseG := by
      simp only [commit, hold]
    rw [hgG]
    by_cases hen : e.1 = rec.poolName
    · rw [hen, lookupA_setA_self]
    · rw [lookupA_setA_ne hen, hg e he]
      have hcnt : inUseCount e.1 (setA svcName rec s.allocated) =
          inUseCount e.1 s.allocated := by
        apply inUseCount_setA_other (fun hh => hen hh.symm)
        intro e₂ he₂ hk₂
        exfalso
        apply lookupA_eq_none.mp hold e₂.2
        rw [← hk₂]
        exact he₂
      rw [hcnt]
  | some oldRec =>
    have hgG : (commit svcName rec s).inUseG =
        setA rec.poolName (inUseCount rec.poolName (setA svcName rec s.allocated))
          (setA oldRec.poolName (inUseCount oldRec.poolName (setA svcName rec s.allocated))
            s.inUseG) := by
      simp only [commit, hold]
    rw [hgG]
    by_cases hen : e.1 = rec.poolName
    · rw [hen, lookupA_setA_self]
    · rw [lookupA_setA_ne hen]
      by_cases heo : e.1 = oldRec.poolName
      · rw [heo, lookupA_setA_self]
      · rw [lookupA_setA_ne heo, hg e he]
        have hcnt : inUseCount e.1 (setA svcName rec s.allocated) =
            inUseCount e.1 s.allocated := by
          apply inUseCount_setA_other (fun hh => hen hh.symm)
          intro e₂ he₂ hk₂
          have hee : e₂ = (svcName, oldRec) :=
            keys_inj_nodup hn he₂ (lookupA_eq_some_mem hold) hk₂
          rw [hee]
          exact fun hh => heo hh.symm
        rw [hcnt]

theorem sharingOK_setA {l : List (String × Alloc)} {svcName : String} {rec : Alloc}
    (hn : NodupKeys l) (hs : SharingOK l)
    (hc : canShare (othersAt rec.ip svcName l) rec.sharingKey rec.ports = none) :
    SharingOK (setA svcName rec l) := by
  have hfacts : ∀ e ∈ l, e.1 ≠ svcName → e.2.ip = rec.ip →
      e.2.sharingKey = rec.sharingKey ∧ rec.sharingKey ≠ "" ∧
        ∀ q ∈ rec.ports, q ∉ e.2.ports := by
    intro e he hne hip
    have hmem : e ∈ othersAt rec.ip svcName l := mem_othersAt.mpr ⟨he, hne, hip⟩
    cases hoth : othersAt rec.ip svcName l with
    | nil => rw [hoth] at hmem; simp at hmem
    | cons o rest =>
      rw [hoth] at hmem hc
      simp only [canShare] at hc
      by_cases hkey : rec.sharingKey = "" ∨ o.2.sharingKey ≠ rec.sharingKey
      · rw [if_pos hkey] at hc
        simp at hc
      · rw [if_neg hkey] at hc
        by_cases hports : ∃ q ∈ rec.ports, q ∈ portsOf (o :: rest)
        · rw [if_pos hports] at hc
          simp at hc
        · push_neg at hkey
          have hko : o.2.sharingKey = rec.sharingKey := by
            by_contra hcon
            exact hcon (hkey.2)
          have hkey2 : e.2.sharingKey = rec.sharingKey := by
            by_cases heo : e = o
            · rw [heo]; exact hko
            · have ho_l : o ∈ l := (mem_othersAt.mp (by rw [hoth]; exact List.mem_cons_self o rest)).1
              have ho_ip : o.2.ip = rec.ip := (mem_othersAt.mp (by rw [hoth]; exact List.mem_cons_self o rest)).2.2
              by_cases hname : e.1 = o.1
              · exact absurd (keys_inj_nodup hn he ho_l hname) heo
              · have := hs e he o ho_l hname (by rw [hip, ho_ip])
                rw [this.1, hko]
          refine ⟨hkey2, hkey.1, ?_⟩
          intro q hq hqe
          apply hports
          refine ⟨q, hq, ?_⟩
          unfold portsOf
          exact List.mem_flatMap.mpr ⟨e, hmem, hqe⟩
  intro e₁ h₁ e₂ h₂ hne hip
  rcases mem_setA.mp h₁ with he₁ | ⟨he₁, hk₁⟩ <;> rcases mem_setA.mp h₂ with he₂ | ⟨he₂, hk₂⟩
  · exfalso
    apply hne
    rw [he₁, he₂]
  · -- e₁ is the new record, e₂ an old one at the same address
    have hf := hfacts e₂ he₂ (by rw [he₁] at hne; exact fun hh => hne hh.symm)
      (by rw [← hip, he₁])
    rw [he₁]
    refine ⟨hf.1.symm, hf.2.1, hf.2.2⟩
  · -- e₂ is the new record, e₁ an old one
    have hf := hfacts e₁ he₁ (by rw [he₂] at hne; exact hne) (by rw [hip, he₂])
    rw [he₂]
    refine ⟨hf.1, by rw [hf.1]; exact hf.2.1, ?_⟩
    intro q hq₁ hq₂
    exact hf.2.2 q hq₂ hq₁
  · exact hs e₁ he₁ e₂ he₂ hne hip

theorem sharingOK_removeA {l : List (String × Alloc)} {svcName : String}
    (hs : SharingOK l) : SharingOK (removeA svcName l) := by
  intro e₁ h₁ e₂ h₂ hne hip
  exact hs e₁ (mem_removeA.mp h₁).1 e₂ (mem_removeA.mp h₂).1 hne hip

theorem poolCoherent_setA {pools : List (String × LocalPool)} {l : List (String × Alloc)}
    {svcName : String} {rec : Alloc} (hp : PoolCoherent pools l)
    (hrec : poolFor pools rec.ip = some rec.poolName) :
    PoolCoherent pools (setA svcName rec l) := by
  intro e he
  rcases mem_setA.mp he with he₁ | ⟨he₁, _⟩
  · rw [he₁]
    exact hrec
  · exact hp e he₁

theorem poolCoherent_removeA {pools : List (String × LocalPool)} {l : List (String × Alloc)}
    {svcName : String} (hp : PoolCoherent pools l) :
    PoolCoherent pools (removeA svcName l) := by
  intro e he
  exact hp e (mem_removeA.mp he).1

theorem gaugeOK_unassign {s : Allocator} (hn : NodupKeys s.allocated) (hg : GaugeOK s)
    (svcName : String) : GaugeOK (Unassign svcName s) := by
  cases hold : lookupA svcName s.allocated with
  | none =>
    unfold Unassign
    rw [hold]
    exact hg
  | some rec =>
    intro e he
    have hpools : (Unassign svcName s).pools = s.pools := by
      unfold Unassign
      rw [hold]
    rw [hpools] at he
    have halloc : (Unassign svcName s).allocated = removeA svcName s.allocated := by
      unfold Unassign
      rw [hold]
    have hgG : (Unassign svcName s).inUseG =
        setA rec.poolName (inUseCount rec.poolName (removeA svcName s.allocated))
          s.inUseG := by
      unfold Unassign
      rw [hold]
    rw [halloc, hgG]
    by_cases hen : e.1 = rec.poolName
    · rw [hen, lookupA_setA_self]
    · rw [lookupA_setA_ne hen, hg e he]
      have hcnt : inUseCount e.1 (removeA svcName s.allocated) =
          inUseCount e.1 s.allocated := by
        apply inUseCount_removeA_other
        intro e₂ he₂ hk₂
        have hee : e₂ = (svcName, rec) :=
          keys_inj_nodup hn he₂ (lookupA_eq_some_mem hold) hk₂
        rw [hee]
        exact fun hh => hen hh.symm
      rw [hcnt]

/-! Pool lookup and disjointness lemmas. -/

theorem mem_poolAddrs_contains {p : LocalPool} {a : Addr} (h : a ∈ poolAddrs p) :
    p.containsA a = true := by
  rcases List.mem_flatMap.mp h with ⟨r, hr, ha⟩
  rcases List.mem_map.mp ha with ⟨i, hi, hia⟩
  rw [List.mem_range] at hi
  unfold LocalPool.containsA
  rw [List.any_eq_true]
  refine ⟨r, hr, ?_⟩
  unfold Range.containsA
  rw [decide_eq_true_eq, ← hia]
  refine ⟨rfl, Nat.le_add_right _ _, ?_⟩
  show r.base + i < r.base + rangeSize r
  omega

theorem range_disj_not_both {r₁ r₂ : Range} (hd : rangeDisj r₁ r₂ = true) {a : Addr}
    (h₁ : r₁.containsA a = true) (h₂ : r₂.containsA a = true) : False := by
  unfold rangeDisj at hd
  unfold Range.containsA at h₁ h₂
  rw [decide_eq_true_eq] at hd h₁ h₂
  obtain ⟨hf₁, hl₁, hu₁⟩ := h₁
  obtain ⟨hf₂, hl₂, hu₂⟩ := h₂
  rcases hd with hf | hle | hle
  · apply hf
    rw [← hf₁, hf₂]
  · omega
  · omega

theorem pool_disj_not_both {p₁ p₂ : LocalPool} (hd : poolDisj p₁ p₂ = true) {a : Addr}
    (h₁ : p₁.containsA a = true) (h₂ : p₂.containsA a = true) : False := by
  unfold poolDisj at hd
  unfold LocalPool.containsA at h₁ h₂
  rw [List.all_eq_true] at hd
  rw [List.any_eq_true] at h₁ h₂
  rcases h₁ with ⟨r₁, hr₁, hc₁⟩
  rcases h₂ with ⟨r₂, hr₂, hc₂⟩
  have hall := hd r₁ hr₁
  rw [List.all_eq_true] at hall
  exact range_disj_not_both (hall r₂ hr₂) hc₁ hc₂

theorem poolFor_unique {pools : List (String × LocalPool)} (hd : PoolsDisjoint pools)
    {n : String} {p : LocalPool} (hm : (n, p) ∈ pools) {a : Addr}
    (hc : p.containsA a = true) : poolFor pools a = some n := by
  induction pools with
  | nil => simp at hm
  | cons e rest ih =>
    rcases List.mem_cons.mp hm with h1 | h1
    · have hec : e.2.containsA a = true := by
        rw [← h1]
        exact hc
      unfold poolFor
      rw [List.find?_cons, hec, ← h1]
      rfl
    · have hdp := (List.pairwise_cons.mp hd).1 (n, p) h1
      have hrest := (List.pairwise_cons.mp hd).2
      have hne : e.2.containsA a = false := by
        cases hb : e.2.containsA a
        · rfl
        · exact absurd (pool_disj_not_both hdp hb hc) (fun hh => hh)
      unfold poolFor
      rw [List.find?_cons, hne]
      exact ih hrest h1

/-! Case-analysis lemmas for the allocation operations. -/

theorem specific_cases (svc : Svc) (a : Addr) (s : Allocator) :
    (∃ e, AllocateSpecificIP svc a s = (Except.error e, s)) ∨
      ∃ pname, poolFor s.pools a = some pname ∧ famOK svc.family a = true ∧
        canShare (othersAt a svc.name s.allocated) svc.sharingKey svc.ports = none ∧
        AllocateSpecificIP svc a s =
          (Except.ok pname, commit svc.name ⟨a, pname, svc.ports, svc.sharingKey⟩ s) := by
  cases hpf : poolFor s.pools a with
  | none =>
    left
    exact ⟨AllocError.outOfAnyPool, by simp [AllocateSpecificIP, hpf]⟩
  | some pname =>
    by_cases hf : famOK svc.family a = true
    · cases hcs : canShare (othersAt a svc.name s.allocated) svc.sharingKey svc.ports with
      | some e =>
        left
        exact ⟨e, by simp [AllocateSpecificIP, hpf, hf, hcs]⟩
      | none =>
        right
        refine ⟨pname, rfl, hf, rfl, ?_⟩
        simp [AllocateSpecificIP, hpf, hf, hcs]
    · left
      exact ⟨AllocError.familyMismatch, by simp [AllocateSpecificIP, hpf, hf]⟩

theorem fromPool_cases (svc : Svc) (n : String) (s : Allocator) :
    (∃ e, AllocateFromPool svc n s = (Except.error e, s)) ∨
      ∃ p a, lookupA n s.pools = some p ∧
        assignNext p svc.name svc.sharingKey svc.ports (effFamily svc s.allocated)
          s.allocated = some a ∧
        AllocateFromPool svc n s =
          (Except.ok a, commit svc.name ⟨a, n, svc.ports, svc.sharingKey⟩ s) := by
  cases hlk : lookupA n s.pools with
  | none =>
    left
    exact ⟨AllocError.noSuchPool, by simp [AllocateFromPool, hlk]⟩
  | some p =>
    cases hasn : assignNext p svc.name svc.sharingKey svc.ports (effFamily svc s.allocated)
        s.allocated with
    | none =>
      left
      exact ⟨AllocError.exhausted, by simp [AllocateFromPool, hlk, hasn]⟩
    | some a =>
      right
      refine ⟨p, a, rfl, hasn, ?_⟩
      simp [AllocateFromPool, hlk, hasn]

theorem assignNext_mem {p : LocalPool} {svcName k : String} {ps : List PortKey}
    {fam : Option Family} {l : List (String × Alloc)} {a : Addr}
    (h : assignNext p svcName k ps fam l = some a) :
    a ∈ poolAddrs p ∧ famOK fam a = true ∧ canShare (othersAt a svcName l) k ps = none := by
  unfold assignNext at h
  refine ⟨List.mem_of_find?_eq_some h, ?_, ?_⟩
  · have hp := List.find?_some h
    rw [Bool.and_eq_true] at hp
    exact hp.1
  · have hp := List.find?_some h
    rw [Bool.and_eq_true] at hp
    have := hp.2
    unfold availableB at this
    exact of_decide_eq_true this

theorem tryPools_cases (svc : Svc) (s : Allocator) (ns : List String) :
    tryPools svc s ns = (Except.error AllocError.exhausted, s) ∨
      ∃ n a, AllocateFromPool svc n s = (Except.ok a, (tryPools svc s ns).2) ∧
        (tryPools svc s ns).1 = Except.ok (n, a) := by
  induction ns with
  | nil => left; rfl
  | cons n rest ih =>
    cases hfp : AllocateFromPool svc n s with
    | mk res s₂ =>
      cases res with
      | ok a =>
        have heq : tryPools svc s (n :: rest) = (Except.ok (n, a), s₂) := by
          simp [tryPools, hfp]
        right
        refine ⟨n, a, ?_, ?_⟩
        · rw [heq, hfp]
        · rw [heq]
      | error e =>
        have heq : tryPools svc s (n :: rest) = tryPools svc s rest := by
          simp [tryPools, hfp]
        rw [heq]
        exact ih

theorem anyIP_cases (svc : Svc) (s : Allocator) :
    (AllocateAnyIP svc s).2 = s ∨
      (∃ a, (AllocateAnyIP svc s).2 = (AllocateSpecificIP svc a s).2) ∨
      (∃ n, (AllocateAnyIP svc s).2 = (AllocateFromPool svc n s).2) := by
  cases hip : svc.lbIP with
  | some a =>
    cases hdp : svc.desiredPool with
    | some n =>
      left
      simp [AllocateAnyIP, hip, hdp]
    | none =>
      right
      left
      refine ⟨a, ?_⟩
      cases hsp : AllocateSpecificIP svc a s with
      | mk res s₂ =>
        cases res with
        | ok pname => simp [AllocateAnyIP, hip, hdp, hsp]
        | error e => simp [AllocateAnyIP, hip, hdp, hsp]
  | none =>
    cases hdp : svc.desiredPool with
    | some n =>
      right
      right
      refine ⟨n, ?_⟩
      cases hfp : AllocateFromPool svc n s with
      | mk res s₂ =>
        cases res with
        | ok a => simp [AllocateAnyIP, hip, hdp, hfp]
        | error e => simp [AllocateAnyIP, hip, hdp, hfp]
    | none =>
      have heq : AllocateAnyIP svc s = tryPools svc s (poolOrder svc s) := by
        simp [AllocateAnyIP, hip, hdp]
      rw [heq]
      rcases tryPools_cases svc s (poolOrder svc s) with h | ⟨n, a, hfp, _⟩
      · left
        rw [h]
      · right
        right
        refine ⟨n, ?_⟩
        rw [hfp]

/-! The well-formedness invariant and its preservation. -/

def WF (pools : List (String × LocalPool)) (s : Allocator) : Prop :=
  s.pools = pools ∧ NodupKeys s.allocated ∧ SharingOK s.allocated ∧
    PoolCoherent pools s.allocated ∧ GaugeOK s

theorem lookupA_init_gauge {pools : List (String × LocalPool)} {e : String × LocalPool}
    (he : e ∈ pools) : lookupA e.1 (pools.map (fun x => (x.1, (0 : Nat)))) = some 0 := by
  induction pools with
  | nil => simp at he
  | cons x rest ih =>
    by_cases hx : x.1 = e.1
    · simp [lookupA, hx]
    · rcases List.mem_cons.mp he with h1 | h1
      · exfalso
        apply hx
        rw [h1]
      · simp only [List.map_cons, lookupA, if_neg hx]
        exact ih h1

theorem wf_init (pools : List (String × LocalPool)) : WF pools (Allocator.init pools) := by
  refine ⟨rfl, by simp [Allocator.init, NodupKeys], ?_, ?_, ?_⟩
  · intro e h
    simp [Allocator.init] at h
  · intro e h
    simp [Allocator.init] at h
  · intro e he
    have hz : inUseCount e.1 ([] : List (String × Alloc)) = 0 := rfl
    show lookupA e.1 (pools.map (fun x => (x.1, (0 : Nat)))) =
      some (inUseCount e.1 ([] : List (String × Alloc)))
    rw [hz]
    exact lookupA_init_gauge he

theorem wf_specific {pools : List (String × LocalPool)} {s : Allocator}
    (hw : WF pools s) (svc : Svc) (a : Addr) :
    WF pools (AllocateSpecificIP svc a s).2 := by
  rcases specific_cases svc a s with ⟨e, heq⟩ | ⟨pname, hpf, _, hcs, heq⟩
  · rw [heq]
    exact hw
  · rw [heq]
    obtain ⟨hp, hn, hs, hco, hg⟩ := hw
    show WF pools (commit svc.name ⟨a, pname, svc.ports, svc.sharingKey⟩ s)
    refine ⟨by rw [commit_pools]; exact hp, ?_, ?_, ?_, gaugeOK_commit hn hg _ _⟩
    · rw [commit_allocated]
      exact nodupKeys_setA hn
    · rw [commit_allocated]
      exact sharingOK_setA hn hs hcs
    · rw [commit_allocated]
      apply poolCoherent_setA hco
      show poolFor pools a = some pname
      rw [← hp]
      exact hpf

theorem wf_fromPool {pools : List (String × LocalPool)} {s : Allocator}
    (hd : PoolsDisjoint pools) (hw : WF pools s) (svc : Svc) (n : String) :
    WF pools (AllocateFromPool svc n s).2 := by
  rcases fromPool_cases svc n s with ⟨e, heq⟩ | ⟨p, a, hlk, hasn, heq⟩
  · rw [heq]
    exact hw
  · rw [heq]
    obtain ⟨hp, hn, hs, hco, hg⟩ := hw
    obtain ⟨hmem, _, hcs⟩ := assignNext_mem hasn
    show WF pools (commit svc.name ⟨a, n, svc.ports, svc.sharingKey⟩ s)
    refine ⟨by rw [commit_pools]; exact hp, ?_, ?_, ?_, gaugeOK_commit hn hg _ _⟩
    · rw [commit_allocated]
      exact nodupKeys_setA hn
    · rw [commit_allocated]
      exact sharingOK_setA hn hs hcs
    · rw [commit_allocated]
      apply poolCoherent_setA hco
      show poolFor pools a = some n
      apply poolFor_unique hd
      · rw [← hp]
        exact lookupA_eq_some_mem hlk
      · exact mem_poolAddrs_contains hmem

theorem wf_anyIP {pools : List (String × LocalPool)} {s : Allocator}
    (hd : PoolsDisjoint pools) (hw : WF pools s) (svc : Svc) :
    WF pools (AllocateAnyIP svc s).2 := by
  rcases anyIP_cases svc s with h | ⟨a, h⟩ | ⟨n, h⟩
  · rw [h]
    exact hw
  · rw [h]
    exact wf_specific hw svc a
  · rw [h]
    exact wf_fromPool hd hw svc n

theorem wf_unassign {pools : List (String × LocalPool)} {s : Allocator}
    (hw : WF pools s) (svcName : String) : WF pools (Unassign svcName s) := by
  cases hold : lookupA svcName s.allocated with
  | none =>
    unfold Unassign
    rw [hold]
    exact hw
  | some rec =>
    obtain ⟨hp, hn, hs, hco, hg⟩ := hw
    have hpools : (Unassign svcName s).pools = s.pools := by
      unfold Unassign
      rw [hold]
    have halloc : (Unassign svcName s).allocated = removeA svcName s.allocated := by
      unfold Unassign
      rw [hold]
    refine ⟨by rw [hpools]; exact hp, ?_, ?_, ?_, gaugeOK_unassign hn hg svcName⟩
    · rw [halloc]
      exact nodupKeys_removeA hn
    · rw [halloc]
      exact sharingOK_removeA hs
    · rw [halloc]
      exact poolCoherent_removeA hco

theorem reachable_wf {pools : List (String × LocalPool)} {s : Allocator}
    (hd : PoolsDisjoint pools) (hr : Reachable pools s) : WF pools s := by
  induction hr with
  | init => exact wf_init pools
  | specific svc a _ ih => exact wf_specific ih svc a
  | fromPool svc n _ ih => exact wf_fromPool hd ih svc n
  | anyIP svc _ ih => exact wf_anyIP hd ih svc
  | unassign svcName _ ih => exact wf_unassign ih svcName

/-! Error atomicity and idempotence lemmas. -/

theorem allocatorExt {s₁ s₂ : Allocator} (hp : s₁.pools = s₂.pools)
    (ha : s₁.allocated = s₂.allocated) (hg : s₁.inUseG = s₂.inUseG)
    (hc : s₁.capG = s₂.capG) : s₁ = s₂ := by
  cases s₁
  cases s₂
  simp_all

theorem commit_inUseG_none {k : String} {rec : Alloc} {s : Allocator}
    (h : lookupA k s.allocated = none) :
    (commit k rec s).inUseG =
      setA rec.poolName (inUseCount rec.poolName (setA k rec s.allocated)) s.inUseG := by
  simp only [commit, h]

theorem commit_inUseG_some {k : String} {rec oldRec : Alloc} {s : Allocator}
    (h : lookupA k s.allocated = some oldRec) :
    (commit k rec s).inUseG =
      setA rec.poolName (inUseCount rec.poolName (setA k rec s.allocated))
        (setA oldRec.poolName (inUseCount oldRec.poolName (setA k rec s.allocated))
          s.inUseG) := by
  simp only [commit, h]

theorem commit_idem (k : String) (rec : Alloc) (s : Allocator) :
    commit k rec (commit k rec s) = commit k rec s := by
  have hall : (commit k rec s).allocated = setA k rec s.allocated := rfl
  have hlk : lookupA k (commit k rec s).allocated = some rec := by
    rw [hall]
    exact lookupA_setA_self k rec s.allocated
  have hset : setA k rec (commit k rec s).allocated = (commit k rec s).allocated := by
    rw [hall]
    exact setA_idem k rec s.allocated
  apply allocatorExt
  · rfl
  · rw [commit_allocated, hset]
  · rw [commit_inUseG_some hlk, hset, setA_idem, hall]
    cases hold : lookupA k s.allocated with
    | none =>
      rw [commit_inUseG_none hold, setA_idem]
    | some oldRec =>
      rw [commit_inUseG_some hold, setA_idem]
  · rfl

theorem specific_err {svc : Svc} {a : Addr} {s s₂ : Allocator} {e : AllocError}
    (h : AllocateSpecificIP svc a s = (Except.error e, s₂)) : s₂ = s := by
  rcases specific_cases svc a s with ⟨e₂, heq⟩ | ⟨pname, _, _, _, heq⟩
  · rw [h] at heq
    simp at heq
    exact heq.2
  · rw [h] at heq
    simp at heq

theorem fromPool_err {svc : Svc} {n : String} {s s₂ : Allocator} {e : AllocError}
    (h : AllocateFromPool svc n s = (Except.error e, s₂)) : s₂ = s := by
  rcases fromPool_cases svc n s with ⟨e₂, heq⟩ | ⟨p, a, _, _, heq⟩
  · rw [h] at heq
    simp at heq
    exact heq.2
  · rw [h] at heq
    simp at heq

theorem tryPools_err {svc : Svc} {s s₂ : Allocator} {ns : List String} {e : AllocError}
    (h : tryPools svc s ns = (Except.error e, s₂)) : s₂ = s := by
  rcases tryPools_cases svc s ns with heq | ⟨n, a, _, hres⟩
  · rw [h] at heq
    simp at heq
    exact heq.2
  · rw [h] at hres
    simp at hres

theorem anyIP_err {svc : Svc} {s s₂ : Allocator} {e : AllocError}
    (h : AllocateAnyIP svc s = (Except.error e, s₂)) : s₂ = s := by
  cases hip : svc.lbIP with
  | some a =>
    cases hdp : svc.desiredPool with
    | some n =>
      simp [AllocateAnyIP, hip, hdp] at h
      exact h.2.symm
    | none =>
      cases hsp : AllocateSpecificIP svc a s with
      | mk res s₃ =>
        cases res with
        | ok pname =>
          simp [AllocateAnyIP, hip, hdp, hsp] at h
        | error e₂ =>
          simp [AllocateAnyIP, hip, hdp, hsp] at h
          rw [← h.2]
          exact specific_err hsp
  | none =>
    cases hdp : svc.desiredPool with
    | some n =>
      cases hfp : AllocateFromPool svc n s with
      | mk res s₃ =>
        cases res with
        | ok a =>
          simp [AllocateAnyIP, hip, hdp, hfp] at h
        | error e₂ =>
          simp [AllocateAnyIP, hip, hdp, hfp] at h
          rw [← h.2]
          exact fromPool_err hfp
    | none =>
      have heq : AllocateAnyIP svc s = tryPools svc s (poolOrder svc s) := by
        simp [AllocateAnyIP, hip, hdp]
      rw [heq] at h
      exact tryPools_err h

theorem notify_cases (svc : Svc) (a : Addr) (s : Allocator) :
    (∃ e, NotifyExisting svc a s = (Except.error e, s)) ∨
      ∃ pname, poolFor s.pools a = some pname ∧ famOK svc.family a = true ∧
        NotifyExisting svc a s =
          (Except.ok pname, commit svc.name ⟨a, pname, svc.ports, svc.sharingKey⟩ s) := by
  cases hpf : poolFor s.pools a with
  | none =>
    left
    exact ⟨AllocError.outOfAnyPool, by simp [NotifyExisting, hpf]⟩
  | some pname =>
    by_cases hf : famOK svc.family a = true
    · right
      refine ⟨pname, rfl, hf, ?_⟩
      simp [NotifyExisting, hpf, hf]
    · left
      exact ⟨AllocError.familyMismatch, by simp [NotifyExisting, hpf, hf]⟩

theorem notify_err {svc : Svc} {a : Addr} {s s₂ : Allocator} {e : AllocError}
    (h : NotifyExisting svc a s = (Except.error e, s₂)) : s₂ = s := by
  rcases notify_cases svc a s with ⟨e₂, heq⟩ | ⟨pname, _, _, heq⟩
  · rw [h] at heq
    simp at heq
    exact heq.2
  · rw [h] at heq
    simp at heq

theorem availableB_setA_self (svcName k : String) (ps : List PortKey) (v : Alloc)
    (l : List (String × Alloc)) (a : Addr) :
    availableB svcName k ps (setA svcName v l) a = availableB svcName k ps l a := by
  unfold availableB
  rw [othersAt_setA_self]

theorem find?_extra {α : Type} {p q e : α → Bool} {l : List α} {a : α}
    (hpq : ∀ x, q x = (e x && p x)) (h : l.find? p = some a) (he : e a = true) :
    l.find? q = some a := by
  induction l with
  | nil => simp at h
  | cons y rest ih =>
    rw [List.find?_cons] at h ⊢
    cases hy : p y with
    | true =>
      rw [hy] at h
      have hya : y = a := by
        simpa using h
      have hpa : p a = true := by
        rw [← hya]
        exact hy
      have hq : q y = true := by
        rw [hpq y, hya, he, Bool.true_and]
        exact hpa
      rw [hq, hya]
    | false =>
      rw [hy] at h
      have hq : q y = false := by
        rw [hpq y, hy, Bool.and_false]
      rw [hq]
      exact ih h

theorem assignNext_setA_self (p : LocalPool) (svcName k : String) (ps : List PortKey)
    (fam : Option Family) (v : Alloc) (l : List (String × Alloc)) :
    assignNext p svcName k ps fam (setA svcName v l) = assignNext p svcName k ps fam l := by
  unfold assignNext
  congr 1
  funext x
  rw [availableB_setA_self]

theorem assignNext_fam_some {p : LocalPool} {svcName k : String} {ps : List PortKey}
    {l : List (String × Alloc)} {a : Addr}
    (h : assignNext p svcName k ps none l = some a) :
    assignNext p svcName k ps (some a.family) l = some a := by
  unfold assignNext at h ⊢
  apply find?_extra (e := fun x => famOK (some a.family) x) ?_ h ?_
  · intro x
    simp [famOK]
  · simp [famOK]

theorem specific_idem {svc : Svc} {a : Addr} {s s₂ : Allocator} {r : String}
    (h : AllocateSpecificIP svc a s = (Except.ok r, s₂)) :
    AllocateSpecificIP svc a s₂ = (Except.ok r, s₂) := by
  rcases specific_cases svc a s with ⟨e, heq⟩ | ⟨pname, hpf, hf, hcs, heq⟩
  · rw [h] at heq
    simp at heq
  · rw [h] at heq
    have hr : r = pname := by
      have := congrArg Prod.fst heq
      simpa using this
    have hs : s₂ = commit svc.name ⟨a, pname, svc.ports, svc.sharingKey⟩ s := by
      have := congrArg Prod.snd heq
      simpa using this
    subst hr
    have hpf₂ : poolFor s₂.pools a = some r := by
      rw [hs, commit_pools]
      exact hpf
    have hcs₂ : canShare (othersAt a svc.name s₂.allocated) svc.sharingKey svc.ports =
        none := by
      rw [hs, commit_allocated, othersAt_setA_self]
      exact hcs
    have hcc : commit svc.name ⟨a, r, svc.ports, svc.sharingKey⟩ s₂ = s₂ := by
      rw [hs]
      exact commit_idem _ _ _
    simp [AllocateSpecificIP, hpf₂, hf, hcs₂, hcc]

theorem fromPool_idem {svc : Svc} {n : String} {s s₂ : Allocator} {a : Addr}
    (h : AllocateFromPool svc n s = (Except.ok a, s₂)) :
    AllocateFromPool svc n s₂ = (Except.ok a, s₂) := by
  rcases fromPool_cases svc n s with ⟨e, heq⟩ | ⟨p, a₂, hlk, hasn, heq⟩
  · rw [h] at heq
    simp at heq
  · rw [h] at heq
    have ha : a₂ = a := by
      have := congrArg Prod.fst heq
      simpa using this.symm
    subst ha
    have hs : s₂ = commit svc.name ⟨a₂, n, svc.ports, svc.sharingKey⟩ s := by
      have := congrArg Prod.snd heq
      simpa using this
    have hall : s₂.allocated = setA svc.name ⟨a₂, n, svc.ports, svc.sharingKey⟩
        s.allocated := by
      rw [hs, commit_allocated]
    have hlk₂ : lookupA n s₂.pools = some p := by
      rw [hs, commit_pools]
      exact hlk
    have hasn₂ : assignNext p svc.name svc.sharingKey svc.ports
        (effFamily svc s₂.allocated) s₂.allocated = some a₂ := by
      have hfam := (assignNext_mem hasn).2.1
      cases hsf : svc.family with
      | some f =>
        have hef₂ : effFamily svc s₂.allocated = some f := by
          simp [effFamily, hsf]
        have hef₀ : effFamily svc s.allocated = some f := by
          simp [effFamily, hsf]
        rw [hef₂, hall, assignNext_setA_self]
        rw [hef₀] at hasn
        exact hasn
      | none =>
        have hef₂ : effFamily svc s₂.allocated = some a₂.family := by
          rw [hall]
          simp [effFamily, hsf, lookupA_setA_self]
        cases hold : lookupA svc.name s.allocated with
        | some oldAl =>
          have hef₀ : effFamily svc s.allocated = some oldAl.ip.family := by
            simp [effFamily, hsf, hold]
          rw [hef₀] at hasn
          have hfam₂ : a₂.family = oldAl.ip.family := by
            rw [hef₀] at hfam
            simpa [famOK] using hfam
          rw [hef₂, hfam₂, hall, assignNext_setA_self]
          exact hasn
        | none =>
          have hef₀ : effFamily svc s.allocated = none := by
            simp [effFamily, hsf, hold]
          rw [hef₀] at hasn
          rw [hef₂, hall, assignNext_setA_self]
          exact assignNext_fam_some hasn
    have hcc : commit svc.name ⟨a₂, n, svc.ports, svc.sharingKey⟩ s₂ = s₂ := by
      rw [hs]
      exact commit_idem _ _ _
    simp [AllocateFromPool, hlk₂, hasn₂, hcc]

theorem anyIP_idem {svc : Svc} {s s₂ : Allocator} {r : String × Addr}
    (h : AllocateAnyIP svc s = (Except.ok r, s₂)) :
    AllocateAnyIP svc s₂ = (Except.ok r, s₂) := by
  cases hip : svc.lbIP with
  | some a =>
    cases hdp : svc.desiredPool with
    | some n =>
      simp [AllocateAnyIP, hip, hdp] at h
    | none =>
      cases hsp : AllocateSpecificIP svc a s with
      | mk res s₃ =>
        cases res with
        | error e =>
          simp [AllocateAnyIP, hip, hdp, hsp] at h
        | ok pname =>
          simp [AllocateAnyIP, hip, hdp, hsp] at h
          have hsp₂ : AllocateSpecificIP svc a s = (Except.ok pname, s₂) := by
            rw [hsp, h.2]
          have hid := specific_idem hsp₂
          simp [AllocateAnyIP, hip, hdp, hid, ← h.1]
  | none =>
    cases hdp : svc.desiredPool with
    | some n =>
      cases hfp : AllocateFromPool svc n s with
      | mk res s₃ =>
        cases res with
        | error e =>
          simp [AllocateAnyIP, hip, hdp, hfp] at h
        | ok a =>
          simp [AllocateAnyIP, hip, hdp, hfp] at h
          have hfp₂ : AllocateFromPool svc n s = (Except.ok a, s₂) := by
            rw [hfp, h.2]
          have hid := fromPool_idem hfp₂
          simp [AllocateAnyIP, hip, hdp, hid, ← h.1]
    | none =>
      have heq : AllocateAnyIP svc s = tryPools svc s (poolOrder svc s) := by
        simp [AllocateAnyIP, hip, hdp]
      rw [heq] at h
      rcases tryPools_cases svc s (poolOrder svc s) with heq₂ | ⟨n, a, hfp, hres⟩
      · rw [h] at heq₂
        simp at heq₂
      · rw [h] at hfp hres
        simp at hres
        have hfp₂ : AllocateFromPool svc n s = (Except.ok a, s₂) := hfp
        rcases fromPool_cases svc n s with ⟨e, hq⟩ | ⟨p, a₂, hlk, hasn, hq⟩
        · rw [hfp₂] at hq
          simp at hq
        · rw [hfp₂] at hq
          have ha : a₂ = a := by
            have := congrArg Prod.fst hq
            simpa using this.symm
          subst ha
          have hs : s₂ = commit svc.name ⟨a₂, n, svc.ports, svc.sharingKey⟩ s := by
            have := congrArg Prod.snd hq
            simpa using this
          have hlkn : lookupA svc.name s₂.allocated =
              some ⟨a₂, n, svc.ports, svc.sharingKey⟩ := by
            rw [hs, commit_allocated]
            exact lookupA_setA_self _ _ _
          have hord : poolOrder svc s₂ = n :: (dedupFirst
              ("default" :: s₂.pools.map (fun e => e.1))).filter
                (fun y => decide (y ≠ n)) := by
            simp [poolOrder, hlkn, dedupFirst]
          have hid := fromPool_idem hfp₂
          have htry : tryPools svc s₂ (poolOrder svc s₂) = (Except.ok (n, a₂), s₂) := by
            rw [hord]
            simp [tryPools, hid]
          have heq₃ : AllocateAnyIP svc s₂ = tryPools svc s₂ (poolOrder svc s₂) := by
            simp [AllocateAnyIP, hip, hdp]
          rw [heq₃, htry, ← hres]

/-! Claim theorems and witnesses. -/

/-- Witness pool: 1.2.3.0/31 under the name default. -/
def wRange : Range := ⟨Family.v4, 16909056, 31⟩

def wPool : LocalPool := ⟨[wRange]⟩

def wPools : List (String × LocalPool) := [("default", wPool)]

def wInit : Allocator := Allocator.init wPools

/-- Witness address 1.2.3.0. -/
def wA : Addr := ⟨Family.v4, 16909056⟩

/-- Witness address 1.2.3.1. -/
def wB : Addr := ⟨Family.v4, 16909057⟩

def wTcp80 : PortKey := ⟨Proto.tcp, 80⟩

def wTcp443 : PortKey := ⟨Proto.tcp, 443⟩

/-- Witness service holding tcp/80 under sharing key share. -/
def wSvc4 : Svc := ⟨"unit/s4", none, none, none, [wTcp80], "share"⟩

/-- Witness service holding tcp/443 under sharing key share. -/
def wSvc5 : Svc := ⟨"unit/s5", none, none, none, [wTcp443], "share"⟩

/-- Witness service with no sharing key. -/
def wSvc3 : Svc := ⟨"unit/s3", none, none, none, [], ""⟩

/-- State after wSvc4 takes 1.2.3.0. -/
def wState1 : Allocator := (AllocateSpecificIP wSvc4 wA wInit).2

/-- State after wSvc4 holds 1.2.3.0 and wSvc5 holds 1.2.3.1. -/
def wState2 : Allocator := (AllocateSpecificIP wSvc5 wB wState1).2

/-- C1: in every reachable allocator state, every address held by two or more
services has all owners presenting the same non-empty sharing key and pairwise
disjoint (protocol, port) sets; an assignment of an owned address fails with
sharing-key-mismatch when the requester key is empty or differs from the key
on the address, and with port-conflict when the keys agree but the port sets
intersect, leaving the state unchanged. -/
theorem c1_sharing_invariant {pools : List (String × LocalPool)} {s : Allocator}
    (hd : PoolsDisjoint pools) (hr : Reachable pools s) :
    SharingOK s.allocated ∧
    (∀ (svc : Svc) (a : Addr) (o : String × Alloc) (rest : List (String × Alloc))
        (pname : String),
      othersAt a svc.name s.allocated = o :: rest →
      poolFor s.pools a = some pname →
      famOK svc.family a = true →
      ((svc.sharingKey = "" ∨ o.2.sharingKey ≠ svc.sharingKey →
        AllocateSpecificIP svc a s = (Except.error AllocError.sharingKeyMismatch, s)) ∧
       ((svc.sharingKey ≠ "" ∧ o.2.sharingKey = svc.sharingKey ∧
          ∃ q ∈ svc.ports, q ∈ portsOf (o :: rest)) →
        AllocateSpecificIP svc a s = (Except.error AllocError.portConflict, s)))) := by
  refine ⟨(reachable_wf hd hr).2.2.1, ?_⟩
  intro svc a o rest pname hoth hpf hf
  constructor
  · intro hkey
    have hcs : canShare (othersAt a svc.name s.allocated) svc.sharingKey svc.ports =
        some AllocError.sharingKeyMismatch := by
      rw [hoth]
      simp only [canShare]
      rw [if_pos]
      rcases hkey with hk | hk
      · exact Or.inl hk
      · exact Or.inr hk
    simp [AllocateSpecificIP, hpf, hf, hcs]
  · intro hports
    have hcs : canShare (othersAt a svc.name s.allocated) svc.sharingKey svc.ports =
        some AllocError.portConflict := by
      rw [hoth]
      simp only [canShare]
      rw [if_neg, if_pos hports.2.2]
      intro hcon
      rcases hcon with hk | hk
      · exact hports.1 hk
      · exact hk hports.2.1
    simp [AllocateSpecificIP, hpf, hf, hcs]

/-- Witness for C1 at a concrete reachable state: the state where wSvc4 holds
1.2.3.0 satisfies the sharing invariant, and a keyless request for 1.2.3.0 by
wSvc3 fails with sharing-key-mismatch leaving the state unchanged. -/
theorem c1_witness :
    SharingOK wState1.allocated ∧
    AllocateSpecificIP wSvc3 wA wState1 =
      (Except.error AllocError.sharingKeyMismatch, wState1) := by
  have hr : Reachable wPools wState1 := Reachable.specific wSvc4 wA Reachable.init
  have h := c1_sharing_invariant (by decide) hr
  refine ⟨h.1, ?_⟩
  have h2 := h.2 wSvc3 wA ("unit/s4", ⟨wA, "default", [wTcp80], "share"⟩) [] "default"
    (by decide) (by decide) (by decide)
  exact h2.1 (Or.inl rfl)

/-- C3: allocation is idempotent: a second identical call of any allocation
operation that succeeded returns the same result and leaves the state of the
first call unchanged. -/
theorem c3_idempotent (svc : Svc) (a : Addr) (n : String) (s : Allocator) :
    (∀ r s₂, AllocateSpecificIP svc a s = (Except.ok r, s₂) →
      AllocateSpecificIP svc a s₂ = (Except.ok r, s₂)) ∧
    (∀ b s₂, AllocateFromPool svc n s = (Except.ok b, s₂) →
      AllocateFromPool svc n s₂ = (Except.ok b, s₂)) ∧
    (∀ r s₂, AllocateAnyIP svc s = (Except.ok r, s₂) →
      AllocateAnyIP svc s₂ = (Except.ok r, s₂)) :=
  ⟨fun _ _ h => specific_idem h, fun _ _ h => fromPool_idem h, fun _ _ h => anyIP_idem h⟩

/-- Witness for C3: repeating a successful AllocateSpecificIP, a successful
AllocateFromPool and a successful AllocateAnyIP of wSvc4 leaves state and
result unchanged. -/
theorem c3_witness :
    AllocateSpecificIP wSvc4 wA ((AllocateSpecificIP wSvc4 wA wInit).2) =
      (Except.ok "default", (AllocateSpecificIP wSvc4 wA wInit).2) ∧
    AllocateFromPool wSvc4 "default" ((AllocateFromPool wSvc4 "default" wInit).2) =
      (Except.ok wA, (AllocateFromPool wSvc4 "default" wInit).2) ∧
    AllocateAnyIP wSvc4 ((AllocateAnyIP wSvc4 wInit).2) =
      (Except.ok ("default", wA), (AllocateAnyIP wSvc4 wInit).2) := by
  refine ⟨?_, ?_, ?_⟩
  · exact (c3_idempotent wSvc4 wA "default" wInit).1 "default" _ (by decide)
  · exact (c3_idempotent wSvc4 wA "default" wInit).2.1 wA _ (by decide)
  · exact (c3_idempotent wSvc4 wA "default" wInit).2.2 ("default", wA) _ (by decide)

/-- C4: error atomicity: every public allocator operation that returns an
error leaves the allocator state identical to the pre-call state; in
particular a failed AllocateSpecificIP records no allocation for the
requesting service and leaves an existing allocation untouched. -/
theorem c4_error_atomic (svc : Svc) (s : Allocator) :
    (∀ a e s₂, AllocateSpecificIP svc a s = (Except.error e, s₂) → s₂ = s) ∧
    (∀ n e s₂, AllocateFromPool svc n s = (Except.error e, s₂) → s₂ = s) ∧
    (∀ e s₂, AllocateAnyIP svc s = (Except.error e, s₂) → s₂ = s) ∧
    (∀ a e s₂, NotifyExisting svc a s = (Except.error e, s₂) → s₂ = s) ∧
    (∀ a e s₂, AllocateSpecificIP svc a s = (Except.error e, s₂) →
      lookupA svc.name s₂.allocated = lookupA svc.name s.allocated) := by
  refine ⟨fun _ _ _ h => specific_err h, fun _ _ _ h => fromPool_err h,
    fun _ _ h => anyIP_err h, fun _ _ _ h => notify_err h, ?_⟩
  intro a e s₂ h
  rw [specific_err h]

/-- Witness for C4: concrete failing calls of all four operations by wSvc3
leave the two-service state untouched. -/
theorem c4_witness :
    ((AllocateSpecificIP wSvc3 wA wState2).2 = wState2) ∧
    ((AllocateFromPool wSvc3 "nope" wState2).2 = wState2) ∧
    ((AllocateAnyIP wSvc3 wState2).2 = wState2) ∧
    ((NotifyExisting wSvc3 ⟨Family.v4, 99⟩ wState2).2 = wState2) ∧
    lookupA wSvc3.name ((AllocateSpecificIP wSvc3 wA wState2).2).allocated =
      lookupA wSvc3.name wState2.allocated := by
  have h := c4_error_atomic wSvc3 wState2
  refine ⟨?_, ?_, ?_, ?_, ?_⟩
  · exact h.1 wA AllocError.sharingKeyMismatch _ (by decide)
  · exact h.2.1 "nope" AllocError.noSuchPool _ (by decide)
  · exact h.2.2.1 AllocError.exhausted _ (by decide)
  · exact h.2.2.2.1 ⟨Family.v4, 99⟩ AllocError.outOfAnyPool _ (by decide)
  · exact h.2.2.2.2 wA AllocError.sharingKeyMismatch _ (by decide)

/-- C5: a service carrying both an explicit loadbalancer address and a desired
pool fails with pool-specified-with-address and allocates nothing; with only an
explicit address AllocateAnyIP behaves exactly as AllocateSpecificIP. -/
theorem c5_pool_with_address (svc : Svc) (a : Addr) (s : Allocator)
    (hip : svc.lbIP = some a) :
    (∀ n, svc.desiredPool = some n →
      AllocateAnyIP svc s = (Except.error AllocError.poolSpecifiedWithAddress, s)) ∧
    (svc.desiredPool = none →
      (AllocateAnyIP svc s).1 = ((AllocateSpecificIP svc a s).1).map (fun p => (p, a)) ∧
      (AllocateAnyIP svc s).2 = (AllocateSpecificIP svc a s).2) := by
  constructor
  · intro n hdp
    simp [AllocateAnyIP, hip, hdp]
  · intro hdp
    cases hsp : AllocateSpecificIP svc a s with
    | mk res s₂ =>
      cases res with
      | ok p => simp [AllocateAnyIP, hip, hdp, hsp, Except.map]
      | error e => simp [AllocateAnyIP, hip, hdp, hsp, Except.map]

/-- Witness service with both an explicit address and a desired pool. -/
def wSvcBoth : Svc := ⟨"unit/both", none, some wA, some "alternate", [], ""⟩

/-- Witness service with an explicit address only. -/
def wSvcAddr : Svc := ⟨"unit/addr", none, some wA, none, [], ""⟩

/-- Witness for C5: the combination is rejected with the state untouched, and
with only an explicit address the result agrees with AllocateSpecificIP. -/
theorem c5_witness :
    AllocateAnyIP wSvcBoth wInit =
      (Except.error AllocError.poolSpecifiedWithAddress, wInit) ∧
    (AllocateAnyIP wSvcAddr wInit).1 =
      ((AllocateSpecificIP wSvcAddr wA wInit).1).map (fun p => (p, wA)) ∧
    (AllocateAnyIP wSvcAddr wInit).2 = (AllocateSpecificIP wSvcAddr wA wInit).2 := by
  refine ⟨?_, ?_⟩
  · exact (c5_pool_with_address wSvcBoth wA wInit rfl).1 "alternate" rfl
  · exact (c5_pool_with_address wSvcAddr wA wInit rfl).2 rfl

/-- C6: with neither an explicit address nor a desired pool, AllocateAnyIP
tries the pool of the prior allocation first, then the pool named default:
when the service has no prior allocation and the default pool yields an
address, that allocation is returned; when a prior allocation exists and its
pool yields an address, that allocation is returned. -/
theorem c6_pool_order (svc : Svc) (s : Allocator)
    (hip : svc.lbIP = none) (hdp : svc.desiredPool = none) :
    (lookupA svc.name s.allocated = none →
      ∀ a s₂, AllocateFromPool svc "default" s = (Except.ok a, s₂) →
        AllocateAnyIP svc s = (Except.ok ("default", a), s₂)) ∧
    (∀ al, lookupA svc.name s.allocated = some al →
      ∀ a s₂, AllocateFromPool svc al.poolName s = (Except.ok a, s₂) →
        AllocateAnyIP svc s = (Except.ok (al.poolName, a), s₂)) := by
  have heq : AllocateAnyIP svc s = tryPools svc s (poolOrder svc s) := by
    simp [AllocateAnyIP, hip, hdp]
  constructor
  · intro hnone a s₂ hfp
    have hord : poolOrder svc s = "default" ::
        (dedupFirst (s.pools.map (fun e => e.1))).filter
          (fun y => decide (y ≠ "default")) := by
      simp [poolOrder, hnone, dedupFirst]
    rw [heq, hord]
    simp [tryPools, hfp]
  · intro al hsome a s₂ hfp
    have hord : poolOrder svc s = al.poolName ::
        (dedupFirst ("default" :: s.pools.map (fun e => e.1))).filter
          (fun y => decide (y ≠ al.poolName)) := by
      simp [poolOrder, hsome, dedupFirst]
    rw [heq, hord]
    simp [tryPools, hfp]

/-- Witness for C6: the hint-free service wSvc4 with no prior allocation gets
1.2.3.0 from the default pool, and with its prior allocation recorded the
prior pool is consulted first. -/
theorem c6_witness :
    AllocateAnyIP wSvc4 wInit = (Except.ok ("default", wA), wState1) ∧
    AllocateAnyIP wSvc4 wState1 = (Except.ok ("default", wA), wState1) := by
  constructor
  · exact (c6_pool_order wSvc4 wInit rfl rfl).1 (by decide) wA wState1 (by decide)
  · exact (c6_pool_order wSvc4 wState1 rfl rfl).2 ⟨wA, "default", [wTcp80], "share"⟩
      (by decide) wA wState1 (by decide)

/-- C8: Unassign always succeeds: afterwards the service is absent from the
allocation map and from every ledger entry, and unassigning an identity that
holds no allocation is a no-op. -/
theorem c8_unassign (svcName : String) (s : Allocator) :
    lookupA svcName (Unassign svcName s).allocated = none ∧
    (∀ e ∈ (Unassign svcName s).allocated, e.1 ≠ svcName) ∧
    (lookupA svcName s.allocated = none → Unassign svcName s = s) := by
  cases hold : lookupA svcName s.allocated with
  | none =>
    have heq : Unassign svcName s = s := by
      unfold Unassign
      rw [hold]
    refine ⟨by rw [heq]; exact hold, ?_, fun _ => heq⟩
    intro e he hek
    rw [heq] at he
    apply lookupA_eq_none.mp hold e.2
    rw [← hek]
    cases e
    exact he
  | some rec =>
    have halloc : (Unassign svcName s).allocated = removeA svcName s.allocated := by
      unfold Unassign
      rw [hold]
    refine ⟨by rw [halloc]; exact lookupA_removeA_self svcName s.allocated, ?_, ?_⟩
    · intro e he
      rw [halloc] at he
      exact (mem_removeA.mp he).2
    · intro hnone
      exact Option.noConfusion hnone

/-- Witness for C8: unassigning wSvc4 from the one-service state removes it,
and unassigning an absent identity is a no-op. -/
theorem c8_witness :
    lookupA "unit/s4" (Unassign "unit/s4" wState1).allocated = none ∧
    Unassign "unit/zzz" wState1 = wState1 := by
  refine ⟨(c8_unassign "unit/s4" wState1).1, ?_⟩
  exact (c8_unassign "unit/zzz" wState1).2.2 (by decide)

/-- The range 1.2.3.4/30 of the shipped tests: network address 1.2.3.4,
broadcast address 1.2.3.7, size 4. -/
def cexRange : Range := ⟨Family.v4, 16909060, 30⟩

def cexPool : LocalPool := ⟨[cexRange]⟩

def cexState : Allocator := Allocator.init [("test", cexPool)]

def cexSvc : Svc := ⟨"unit/s1", none, none, none, [], ""⟩

/-- C2 counterexample: for the pool 1.2.3.4/30 of the shipped tests the
capacity gauge is the full range size 4 rather than 4 - 2, and assignNext
returns the network address 1.2.3.4 of the range, so the network and
broadcast endpoints are not reserved (TestPoolMetrics expects capacity 4 and
TestPoolAllocation allocates all four addresses of this very range). -/
theorem c2_counterexample :
    capacity cexPool ≠ rangeSize cexRange - 2 ∧
    lookupA "test" cexState.capG = some 4 ∧
    (AllocateFromPool cexSvc "test" cexState).1 =
      Except.ok ⟨Family.v4, cexRange.base⟩ := by decide

/-- C2 amended: no endpoints of a Local pool range are reserved: the capacity
gauge published for a pool equals the full sum of its range sizes, and on an
empty ledger assignNext returns the first address of the first range, which
for a CIDR prefix shorter than the host length is the network address. -/
theorem c2_amended (n : String) (p : LocalPool) (r : Range) (rs : List Range)
    (svcName k : String) (ps : List PortKey) (hp : p.ranges = r :: rs) :
    lookupA n (Allocator.init [(n, p)]).capG = some ((p.ranges.map rangeSize).sum) ∧
    assignNext p svcName k ps none [] = some ⟨r.family, r.base⟩ := by
  constructor
  · simp [Allocator.init, lookupA, capacity]
  · have hpred : ∀ x : Addr,
        (famOK none x && availableB svcName k ps [] x) = true := by
      intro x
      simp [famOK, availableB, othersAt, canShare]
    have hpos : 0 < rangeSize r := Nat.pos_pow_of_pos _ (by norm_num)
    obtain ⟨m, hm⟩ : ∃ m, rangeSize r = m + 1 := ⟨rangeSize r - 1, by omega⟩
    obtain ⟨tail, htail⟩ : ∃ tail, rangeAddrs r = ⟨r.family, r.base⟩ :: tail := by
      unfold rangeAddrs
      rw [hm, List.range_succ_eq_map, List.map_cons]
      refine ⟨List.map (fun i => ⟨r.family, r.base + i⟩) (List.map Nat.succ (List.range m)), ?_⟩
      rw [List.cons_eq_cons]
      exact ⟨by simp, rfl⟩
    unfold assignNext poolAddrs
    rw [hp, List.flatMap_cons, htail, List.cons_append, List.find?_cons,
      hpred ⟨r.family, r.base⟩]

/-- Witness for C2 amended at the concrete test pool 1.2.3.4/30. -/
theorem c2_amended_witness :
    lookupA "test" (Allocator.init [("test", cexPool)]).capG =
      some ((cexPool.ranges.map rangeSize).sum) ∧
    assignNext cexPool "unit/s1" "" [] none [] =
      some ⟨Family.v4, cexRange.base⟩ :=
  c2_amended "test" cexPool cexRange [] "unit/s1" "" [] rfl

/-! Counting lemmas for the in-use gauge claim. -/

/-- The set of distinct allocated addresses contained in a pool. -/
def heldSet (p : LocalPool) (l : List (String × Alloc)) : Finset Addr :=
  ((l.filter (fun e => p.containsA e.2.ip)).map (fun e => e.2.ip)).toFinset

theorem heldCard_eq (p : LocalPool) (l : List (String × Alloc)) :
    heldCard p l = (heldSet p l).card := rfl

theorem mem_heldSet {p : LocalPool} {l : List (String × Alloc)} {x : Addr} :
    x ∈ heldSet p l ↔ ∃ e ∈ l, p.containsA e.2.ip = true ∧ e.2.ip = x := by
  unfold heldSet
  simp only [List.mem_toFinset, List.mem_map, List.mem_filter]
  constructor
  · rintro ⟨e, ⟨he, hp⟩, hx⟩
    exact ⟨e, he, hp, hx⟩
  · rintro ⟨e, he, hp, hx⟩
    exact ⟨e, ⟨he, hp⟩, hx⟩

theorem poolFor_mem {pools : List (String × LocalPool)} {a : Addr} {n : String}
    (h : poolFor pools a = some n) : ∃ q, (n, q) ∈ pools ∧ q.containsA a = true := by
  unfold poolFor at h
  cases hf : pools.find? (fun e => e.2.containsA a) with
  | none =>
    rw [hf] at h
    simp at h
  | some e =>
    rw [hf] at h
    simp at h
    have hp := List.find?_some hf
    refine ⟨e.2, ?_, hp⟩
    have hm := List.mem_of_find?_eq_some hf
    rw [← h]
    rw [Prod.mk.eta]
    exact hm

theorem pool_name_unique {pools : List (String × LocalPool)} (hnn : NodupKeys pools)
    {n : String} {p q : LocalPool} (hp : (n, p) ∈ pools) (hq : (n, q) ∈ pools) :
    p = q := by
  have h := keys_inj_nodup hnn hp hq rfl
  exact congrArg Prod.snd h

theorem inUseCount_eq_heldCard {pools : List (String × LocalPool)}
    (hd : PoolsDisjoint pools) (hnn : NodupKeys pools) {n : String} {p : LocalPool}
    (hnp : (n, p) ∈ pools) {l : List (String × Alloc)} (hco : PoolCoherent pools l) :
    inUseCount n l = heldCard p l := by
  unfold inUseCount
  rw [heldCard_eq]
  congr 1
  apply Finset.ext
  intro x
  rw [mem_poolIps, mem_heldSet]
  constructor
  · rintro ⟨e, he, hpn, hx⟩
    have hcoe := hco e he
    rw [hpn] at hcoe
    obtain ⟨q, hqm, hqc⟩ := poolFor_mem hcoe
    have hq : q = p := pool_name_unique hnn hqm hnp
    rw [hq] at hqc
    exact ⟨e, he, hqc, hx⟩
  · rintro ⟨e, he, hpc, hx⟩
    have hxf : poolFor pools e.2.ip = some n := poolFor_unique hd hnp hpc
    have hcoe := hco e he
    rw [hcoe] at hxf
    have hpn : e.2.poolName = n := by
      injection hxf
    exact ⟨e, he, hpn, hx⟩

theorem heldSet_removeA_other {p : LocalPool} {l : List (String × Alloc)}
    {svcName : String} {rec : Alloc} (hn : NodupKeys l)
    (hlk : lookupA svcName l = some rec) {o : String × Alloc} (ho : o ∈ l)
    (hon : o.1 ≠ svcName) (hoip : o.2.ip = rec.ip) :
    heldSet p (removeA svcName l) = heldSet p l := by
  apply Finset.ext
  intro x
  rw [mem_heldSet, mem_heldSet]
  constructor
  · rintro ⟨e, he, hpc, hx⟩
    exact ⟨e, (mem_removeA.mp he).1, hpc, hx⟩
  · rintro ⟨e, he, hpc, hx⟩
    by_cases hek : e.1 = svcName
    · have hee : e = (svcName, rec) := keys_inj_nodup hn he (lookupA_eq_some_mem hlk) hek
      have heip : e.2.ip = rec.ip := by
        rw [hee]
      refine ⟨o, mem_removeA.mpr ⟨ho, hon⟩, ?_, ?_⟩
      · rw [hoip, ← heip]
        exact hpc
      · rw [hoip, ← heip]
        exact hx
    · exact ⟨e, mem_removeA.mpr ⟨he, hek⟩, hpc, hx⟩

theorem heldSet_removeA_last {p : LocalPool} {l : List (String × Alloc)}
    {svcName : String} {rec : Alloc} (hn : NodupKeys l)
    (hlk : lookupA svcName l = some rec)
    (hno : othersAt rec.ip svcName l = []) (hpc : p.containsA rec.ip = true) :
    heldSet p l = insert rec.ip (heldSet p (removeA svcName l)) ∧
      rec.ip ∉ heldSet p (removeA svcName l) := by
  constructor
  · apply Finset.ext
    intro x
    rw [Finset.mem_insert, mem_heldSet, mem_heldSet]
    constructor
    · rintro ⟨e, he, hec, hx⟩
      by_cases hek : e.1 = svcName
      · have hee : e = (svcName, rec) := keys_inj_nodup hn he (lookupA_eq_some_mem hlk) hek
        left
        rw [← hx, hee]
      · right
        exact ⟨e, mem_removeA.mpr ⟨he, hek⟩, hec, hx⟩
    · rintro (hx | ⟨e, he, hec, hx⟩)
      · exact ⟨(svcName, rec), lookupA_eq_some_mem hlk, hpc, hx.symm⟩
      · exact ⟨e, (mem_removeA.mp he).1, hec, hx⟩
  · rw [mem_heldSet]
    rintro ⟨e, he, hec, hx⟩
    have hmo : e ∈ othersAt rec.ip svcName l :=
      mem_othersAt.mpr ⟨(mem_removeA.mp he).1, (mem_removeA.mp he).2, hx⟩
    rw [hno] at hmo
    simp at hmo

/-- C7: in every reachable state the in-use gauge of every pool equals the
number of distinct allocated addresses contained in that pool: a shared
address counts once, the gauge is unchanged by a release while another sharer
remains, and it drops by one when the last sharer is unassigned. -/
theorem c7_inuse_gauge {pools : List (String × LocalPool)} {s : Allocator}
    (hd : PoolsDisjoint pools) (hnn : NodupKeys pools) (hr : Reachable pools s)
    (n : String) (p : LocalPool) (hnp : (n, p) ∈ pools) :
    lookupA n s.inUseG = some (heldCard p s.allocated) ∧
    (∀ svcName rec, lookupA svcName s.allocated = some rec → rec.poolName = n →
      (othersAt rec.ip svcName s.allocated ≠ [] →
        lookupA n (Unassign svcName s).inUseG = lookupA n s.inUseG) ∧
      (othersAt rec.ip svcName s.allocated = [] →
        lookupA n (Unassign svcName s).inUseG =
          some (heldCard p s.allocated - 1))) := by
  obtain ⟨hpe, hnd, hsh, hco, hg⟩ := reachable_wf hd hr
  have hnp₂ : (n, p) ∈ s.pools := by
    rw [hpe]
    exact hnp
  have h1 : lookupA n s.inUseG = some (inUseCount n s.allocated) := hg (n, p) hnp₂
  have hconv : inUseCount n s.allocated = heldCard p s.allocated :=
    inUseCount_eq_heldCard hd hnn hnp hco
  refine ⟨by rw [h1, hconv], ?_⟩
  intro svcName rec hlk hrpn
  have hung : (Unassign svcName s).inUseG =
      setA rec.poolName (inUseCount rec.poolName (removeA svcName s.allocated))
        s.inUseG := by
    unfold Unassign
    rw [hlk]
  have hco₂ : PoolCoherent pools (removeA svcName s.allocated) :=
    poolCoherent_removeA hco
  have hconv₂ : inUseCount n (removeA svcName s.allocated) =
      heldCard p (removeA svcName s.allocated) :=
    inUseCount_eq_heldCard hd hnn hnp hco₂
  have hlkg : lookupA n (Unassign svcName s).inUseG =
      some (inUseCount n (removeA svcName s.allocated)) := by
    rw [hung, hrpn, lookupA_setA_self]
  have hpc : p.containsA rec.ip = true := by
    have hcoe := hco (svcName, rec) (lookupA_eq_some_mem hlk)
    rw [hrpn] at hcoe
    obtain ⟨q, hqm, hqc⟩ := poolFor_mem hcoe
    rw [pool_name_unique hnn hqm hnp] at hqc
    exact hqc
  constructor
  · intro hne
    cases hoth : othersAt rec.ip svcName s.allocated with
    | nil => exact absurd hoth hne
    | cons o rest =>
      have ho := mem_othersAt.mp (hoth ▸ List.mem_cons_self o rest)
      have hsets : heldSet p (removeA svcName s.allocated) = heldSet p s.allocated :=
        heldSet_removeA_other hnd hlk ho.1 ho.2.1 ho.2.2
      rw [hlkg, h1, hconv₂, hconv, heldCard_eq, heldCard_eq, hsets]
  · intro hno
    obtain ⟨hins, hnm⟩ := heldSet_removeA_last hnd hlk hno hpc
    rw [hlkg, hconv₂, heldCard_eq, heldCard_eq, hins,
      Finset.card_insert_of_not_mem hnm]
    congr 1

/-- State where wSvc4 and wSvc5 share 1.2.3.0. -/
def wStateSh : Allocator := (AllocateSpecificIP wSvc5 wA wState1).2

/-- Witness for C7: in the shared state the default gauge counts the shared
address once, releasing one sharer leaves the gauge unchanged, and releasing
the only owner drops the gauge by one. -/
theorem c7_witness :
    lookupA "default" wStateSh.inUseG = some (heldCard wPool wStateSh.allocated) ∧
    lookupA "default" (Unassign "unit/s4" wStateSh).inUseG =
      lookupA "default" wStateSh.inUseG ∧
    lookupA "default" (Unassign "unit/s4" wState1).inUseG =
      some (heldCard wPool wState1.allocated - 1) := by
  have hr1 : Reachable wPools wState1 := Reachable.specific wSvc4 wA Reachable.init
  have hr2 : Reachable wPools wStateSh := Reachable.specific wSvc5 wA hr1
  have hsh := c7_inuse_gauge (by decide) (by decide) hr2 "default" wPool (by decide)
  have h1 := c7_inuse_gauge (by decide) (by decide) hr1 "default" wPool (by decide)
  refine ⟨hsh.1, ?_, ?_⟩
  · exact (hsh.2 "unit/s4" ⟨wA, "default", [wTcp80], "share"⟩ (by decide) rfl).1
      (by decide)
  · exact (h1.2 "unit/s4" ⟨wA, "default", [wTcp80], "share"⟩ (by decide) rfl).2
      (by decide)

/-! Ingress encoding, embedded from internal/allocator/service.go.  Strings
are modelled as character lists.  The net library pair ParseIP / IP.String is
modelled with dotted-quad IPv4 and eight-hextet IPv6; RFC 5952 zero
compression of the IPv6 rendering is not modelled, since compression only
changes which colon-and-hex-digit string appears and never introduces the
dot and dash characters that the ingress encoding manipulates. -/

/-- Character strings of the ingress layer. -/
abbrev Str := List Char

/-- The EPICIngressDomain constant of service.go. -/
def epicDomain : Str :=
  ['.', 'c', 'l', 'i', 'e', 'n', 't', '.', 'a', 'c', 'n', 'o', 'd', 'a', 'l', '.', 'i', 'o']

/-- An IP address as the net library presents it. -/
inductive IpAddr where
  | v4 (a b c d : Nat)
  | v6 (hs : List Nat)
deriving DecidableEq

/-- A valid address: IPv4 octets up to 255; IPv6 exactly eight hextets below
2 to the 16. -/
def ValidIp : IpAddr → Prop
  | .v4 a b c d => a ≤ 255 ∧ b ≤ 255 ∧ c ≤ 255 ∧ d ≤ 255
  | .v6 hs => hs.length = 8 ∧ ∀ h ∈ hs, h < 65536

/-- Decimal digit character. -/
def digitChar : Nat → Char
  | 0 => '0'
  | 1 => '1'
  | 2 => '2'
  | 3 => '3'
  | 4 => '4'
  | 5 => '5'
  | 6 => '6'
  | 7 => '7'
  | 8 => '8'
  | 9 => '9'
  | _ => '?'

/-- Lowercase hexadecimal digit character, as the net library renders it. -/
def hexDigitChar : Nat → Char
  | 10 => 'a'
  | 11 => 'b'
  | 12 => 'c'
  | 13 => 'd'
  | 14 => 'e'
  | 15 => 'f'
  | d => digitChar d

/-- Decimal rendering of a number, most significant digit first. -/
def natToChars (x : Nat) : Str :=
  if x = 0 then ['0'] else (Nat.digits 10 x).reverse.map digitChar

/-- Hexadecimal rendering of a number, most significant digit first. -/
def natToHexChars (x : Nat) : Str :=
  if x = 0 then ['0'] else (Nat.digits 16 x).reverse.map hexDigitChar

/-- Decimal digit value of a character. -/
def charDigit (c : Char) : Option Nat :=
  if c = '0' then some 0
  else if c = '1' then some 1
  else if c = '2' then some 2
  else if c = '3' then some 3
  else if c = '4' then some 4
  else if c = '5' then some 5
  else if c = '6' then some 6
  else if c = '7' then some 7
  else if c = '8' then some 8
  else if c = '9' then some 9
  else none

/-- Hexadecimal digit value of a character. -/
def charHexDigit (c : Char) : Option Nat :=
  match charDigit c with
  | some d => some d
  | none =>
    if c = 'a' ∨ c = 'A' then some 10
    else if c = 'b' ∨ c = 'B' then some 11
    else if c = 'c' ∨ c = 'C' then some 12
    else if c = 'd' ∨ c = 'D' then some 13
    else if c = 'e' ∨ c = 'E' then some 14
    else if c = 'f' ∨ c = 'F' then some 15
    else none

/-- Parse a non-empty run of decimal digits. -/
def parseDec (s : Str) : Option Nat :=
  if s = [] then none
  else s.foldl (fun acc c =>
    match acc, charDigit c with
    | some n, some d => some (n * 10 + d)
    | _, _ => none) (some 0)

/-- Parse a non-empty run of hexadecimal digits. -/
def parseHexRun (s : Str) : Option Nat :=
  if s = [] then none
  else s.foldl (fun acc c =>
    match acc, charHexDigit c with
    | some n, some d => some (n * 16 + d)
    | _, _ => none) (some 0)

/-- An IPv4 field: a decimal run bounded by 255. -/
def parseField (s : Str) : Option Nat :=
  match parseDec s with
  | some n => if n ≤ 255 then some n else none
  | none => none

/-- An IPv6 hextet: a hexadecimal run below 2 to the 16. -/
def parseHexField (s : Str) : Option Nat :=
  match parseHexRun s with
  | some n => if n < 65536 then some n else none
  | none => none

/-- Split a string on a separator character. -/
def splitOnC (sep : Char) : Str → List Str
  | [] => [[]]
  | c :: rest =>
    match splitOnC sep rest with
    | [] => [[c]]
    | g :: gs => if c = sep then [] :: g :: gs else (c :: g) :: gs

/-- Join strings with a separator character. -/
def joinWith (sep : Char) : List Str → Str
  | [] => []
  | [g] => g
  | g :: gs => g ++ sep :: joinWith sep gs

def parseHexGroups : List Str → Option (List Nat)
  | [] => some []
  | g :: gs =>
    match parseHexField g, parseHexGroups gs with
    | some h, some hs => some (h :: hs)
    | _, _ => none

/-- Modelled net.ParseIP: four dotted decimal fields give IPv4; otherwise
eight colon-separated hexadecimal fields give IPv6. -/
def parseIP (s : Str) : Option IpAddr :=
  match splitOnC '.' s with
  | [sa, sb, sc, sd] =>
    match parseField sa, parseField sb, parseField sc, parseField sd with
    | some a, some b, some c, some d => some (IpAddr.v4 a b c d)
    | _, _, _, _ => none
  | _ =>
    if (splitOnC ':' s).length = 8 then
      match parseHexGroups (splitOnC ':' s) with
      | some hs => some (IpAddr.v6 hs)
      | none => none
    else none

/-- Modelled net.IP.String. -/
def ipString : IpAddr → Str
  | .v4 a b c d =>
      natToChars a ++ '.' :: (natToChars b ++ '.' :: (natToChars c ++ '.' :: natToChars d))
  | .v6 hs => joinWith ':' (hs.map natToHexChars)

/-- The v1.LoadBalancerIngress fields used by service.go; the zero value of a
field is the empty string. -/
structure IngressRec where
  ip : Str
  hostname : Str
deriving DecidableEq

/-- The strings.Replace(s, dot, dash, -1) call of addIngress. -/
def dotsToDashes (s : Str) : Str := s.map (fun c => if c = '.' then '-' else c)

/-- The strings.Replace(s, dash, dot, -1) call of parseIngress. -/
def dashesToDots (s : Str) : Str := s.map (fun c => if c = '-' then '.' else c)

/-- The strings.ReplaceAll(s, pat, empty) call of parseIngress: delete the
leftmost occurrences of pat, scanning left to right. -/
def replaceAll (pat : Str) : Str → Str
  | [] => []
  | c :: rest =>
    if pat.isPrefixOf (c :: rest) ∧ pat ≠ [] then
      replaceAll pat (rest.drop (pat.length - 1))
    else c :: replaceAll pat rest
termination_by s => s.length
decreasing_by
  all_goals simp [List.length_drop]
  omega

/-- The strings.HasSuffix check of parseIngress. -/
def hasSuffix (suf s : Str) : Bool := List.isSuffixOf suf s

/-- addIngress of service.go: with the EPIC service annotation the address is
written into the Hostname field with dots replaced by dashes and the EPIC
domain appended; otherwise it is written into the IP field. -/
def addIngress (hasServiceAnn : Bool) (address : IpAddr) : IngressRec :=
  if hasServiceAnn then
    { ip := [], hostname := dotsToDashes (ipString address) ++ epicDomain }
  else
    { ip := ipString address, hostname := [] }

/-- parseIngress of service.go: parse the IP field; otherwise, when the
hostname carries the EPIC domain, delete the domain, turn dashes back into
dots, and parse the result. -/
def parseIngress (raw : IngressRec) : Option IpAddr :=
  match parseIP raw.ip with
  | some ip => some ip
  | none =>
    if hasSuffix epicDomain raw.hostname then
      parseIP (dashesToDots (replaceAll epicDomain raw.hostname))
    else none

/-! Round-trip lemmas for the ingress encoding. -/

theorem charDigit_digitChar {d : Nat} (h : d < 10) :
    charDigit (digitChar d) = some d := by
  interval_cases d <;> decide

theorem digitChar_ne {d : Nat} (h : d < 10) :
    digitChar d ≠ '.' ∧ digitChar d ≠ '-' ∧ digitChar d ≠ ':' := by
  interval_cases d <;> exact (by decide)

theorem charHexDigit_hexDigitChar {d : Nat} (h : d < 16) :
    charHexDigit (hexDigitChar d) = some d := by
  interval_cases d <;> decide

theorem hexDigitChar_ne {d : Nat} (h : d < 16) :
    hexDigitChar d ≠ '.' ∧ hexDigitChar d ≠ '-' ∧ hexDigitChar d ≠ ':' := by
  interval_cases d <;> exact (by decide)

theorem foldl_dec_go (ds : List Nat) (hds : ∀ d ∈ ds, d < 10) :
    ∀ acc : Nat, (ds.map digitChar).foldl (fun acc c =>
      match acc, charDigit c with
      | some n, some d => some (n * 10 + d)
      | _, _ => none) (some acc) =
      some (ds.foldl (fun a d => a * 10 + d) acc) := by
  induction ds with
  | nil =>
    intro acc
    rfl
  | cons d ds ih =>
    intro acc
    rw [List.map_cons, List.foldl_cons, List.foldl_cons]
    have hd : charDigit (digitChar d) = some d :=
      charDigit_digitChar (hds d (List.mem_cons_self d ds))
    simp only [hd]
    exact ih (fun x hx => hds x (List.mem_cons_of_mem _ hx)) (acc * 10 + d)

theorem foldl_hex_go (ds : List Nat) (hds : ∀ d ∈ ds, d < 16) :
    ∀ acc : Nat, (ds.map hexDigitChar).foldl (fun acc c =>
      match acc, charHexDigit c with
      | some n, some d => some (n * 16 + d)
      | _, _ => none) (some acc) =
      some (ds.foldl (fun a d => a * 16 + d) acc) := by
  induction ds with
  | nil =>
    intro acc
    rfl
  | cons d ds ih =>
    intro acc
    rw [List.map_cons, List.foldl_cons, List.foldl_cons]
    have hd : charHexDigit (hexDigitChar d) = some d :=
      charHexDigit_hexDigitChar (hds d (List.mem_cons_self d ds))
    simp only [hd]
    exact ih (fun x hx => hds x (List.mem_cons_of_mem _ hx)) (acc * 16 + d)

theorem foldl_reverse_ofDigits (b : Nat) (ds : List Nat) :
    (ds.reverse).foldl (fun a d => a * b + d) 0 = Nat.ofDigits b ds := by
  induction ds with
  | nil => rfl
  | cons d ds ih =>
    rw [List.reverse_cons, List.foldl_append, ih, Nat.ofDigits_cons]
    simp only [List.foldl_cons, List.foldl_nil]
    ring

theorem parseDec_natToChars {n : Nat} : parseDec (natToChars n) = some n := by
  by_cases h0 : n = 0
  · subst h0
    decide
  · unfold natToChars parseDec
    rw [if_neg h0]
    have hne : (Nat.digits 10 n).reverse.map digitChar ≠ [] := by
      simp [Nat.digits_ne_nil_iff_ne_zero.mpr h0]
    rw [if_neg hne]
    have hds : ∀ d ∈ (Nat.digits 10 n).reverse, d < 10 := fun d hd =>
      Nat.digits_lt_base (by norm_num) (List.mem_reverse.mp hd)
    rw [foldl_dec_go _ hds 0, foldl_reverse_ofDigits, Nat.ofDigits_digits]

theorem parseHexRun_natToHexChars {n : Nat} : parseHexRun (natToHexChars n) = some n := by
  by_cases h0 : n = 0
  · subst h0
    decide
  · unfold natToHexChars parseHexRun
    rw [if_neg h0]
    have hne : (Nat.digits 16 n).reverse.map hexDigitChar ≠ [] := by
      simp [Nat.digits_ne_nil_iff_ne_zero.mpr h0]
    rw [if_neg hne]
    have hds : ∀ d ∈ (Nat.digits 16 n).reverse, d < 16 := fun d hd =>
      Nat.digits_lt_base (by norm_num) (List.mem_reverse.mp hd)
    rw [foldl_hex_go _ hds 0, foldl_reverse_ofDigits, Nat.ofDigits_digits]

theorem mem_natToChars {n : Nat} {c : Char} (h : c ∈ natToChars n) :
    ∃ d, d < 10 ∧ c = digitChar d := by
  unfold natToChars at h
  by_cases h0 : n = 0
  · rw [if_pos h0] at h
    simp at h
    exact ⟨0, by norm_num, by rw [h]; rfl⟩
  · rw [if_neg h0] at h
    rcases List.mem_map.mp h with ⟨d, hd, hdc⟩
    exact ⟨d, Nat.digits_lt_base (by norm_num) (List.mem_reverse.mp hd), hdc.symm⟩

theorem natToChars_sep {n : Nat} {c : Char} (h : c ∈ natToChars n) :
    c ≠ '.' ∧ c ≠ '-' ∧ c ≠ ':' := by
  obtain ⟨d, hd, rfl⟩ := mem_natToChars h
  exact digitChar_ne hd

theorem mem_natToHexChars {n : Nat} {c : Char} (h : c ∈ natToHexChars n) :
    ∃ d, d < 16 ∧ c = hexDigitChar d := by
  unfold natToHexChars at h
  by_cases h0 : n = 0
  · rw [if_pos h0] at h
    simp at h
    exact ⟨0, by norm_num, by rw [h]; rfl⟩
  · rw [if_neg h0] at h
    rcases List.mem_map.mp h with ⟨d, hd, hdc⟩
    exact ⟨d, Nat.digits_lt_base (by norm_num) (List.mem_reverse.mp hd), hdc.symm⟩

theorem natToHexChars_sep {n : Nat} {c : Char} (h : c ∈ natToHexChars n) :
    c ≠ '.' ∧ c ≠ '-' ∧ c ≠ ':' := by
  obtain ⟨d, hd, rfl⟩ := mem_natToHexChars h
  exact hexDigitChar_ne hd

theorem splitOnC_ne_nil (sep : Char) (s : Str) : splitOnC sep s ≠ [] := by
  cases s with
  | nil => simp [splitOnC]
  | cons c rest =>
    unfold splitOnC
    cases h : splitOnC sep rest with
    | nil => simp
    | cons g gs =>
      by_cases hc : c = sep <;> simp [hc]

theorem splitOnC_no_sep {sep : Char} {g : Str} (h : ∀ c ∈ g, c ≠ sep) :
    splitOnC sep g = [g] := by
  induction g with
  | nil => rfl
  | cons c rest ih =>
    have hr := ih (fun x hx => h x (List.mem_cons_of_mem _ hx))
    simp only [splitOnC, hr]
    rw [if_neg (h c (List.mem_cons_self c rest))]

theorem splitOnC_append {sep : Char} {g rest : Str} (h : ∀ c ∈ g, c ≠ sep) :
    splitOnC sep (g ++ sep :: rest) = g :: splitOnC sep rest := by
  induction g with
  | nil =>
    cases hsp : splitOnC sep rest with
    | nil => exact absurd hsp (splitOnC_ne_nil sep rest)
    | cons g₂ gs =>
      simp [List.nil_append, splitOnC, hsp]
  | cons c g ih =>
    have hih := ih (fun x hx => h x (List.mem_cons_of_mem _ hx))
    have hc : c ≠ sep := h c (List.mem_cons_self c _)
    show splitOnC sep (c :: (g ++ sep :: rest)) = (c :: g) :: splitOnC sep rest
    simp only [splitOnC, hih]
    rw [if_neg hc]

theorem splitOnC_joinWith {sep : Char} {gs : List Str} (hne : gs ≠ [])
    (h : ∀ g ∈ gs, ∀ c ∈ g, c ≠ sep) :
    splitOnC sep (joinWith sep gs) = gs := by
  induction gs with
  | nil => exact absurd rfl hne
  | cons g gs ih =>
    cases gs with
    | nil =>
      show splitOnC sep (joinWith sep [g]) = [g]
      exact splitOnC_no_sep (h g (List.mem_cons_self g _))
    | cons g₂ gs₂ =>
      have hjoin : joinWith sep (g :: g₂ :: gs₂) = g ++ sep :: joinWith sep (g₂ :: gs₂) :=
        rfl
      rw [hjoin, splitOnC_append (h g (List.mem_cons_self g _)),
        ih (by simp) (fun x hx => h x (List.mem_cons_of_mem _ hx))]

theorem mem_joinWith {sep : Char} {gs : List Str} {c : Char}
    (h : c ∈ joinWith sep gs) : c = sep ∨ ∃ g ∈ gs, c ∈ g := by
  induction gs with
  | nil => simp [joinWith] at h
  | cons g gs ih =>
    cases gs with
    | nil =>
      right
      exact ⟨g, List.mem_cons_self g _, h⟩
    | cons g₂ gs₂ =>
      have hjoin : joinWith sep (g :: g₂ :: gs₂) = g ++ sep :: joinWith sep (g₂ :: gs₂) :=
        rfl
      rw [hjoin] at h
      rcases List.mem_append.mp h with h1 | h1
      · right
        exact ⟨g, List.mem_cons_self g _, h1⟩
      · rcases List.mem_cons.mp h1 with h2 | h2
        · left
          exact h2
        · rcases ih h2 with h3 | ⟨g₃, hg₃, hc₃⟩
          · left
            exact h3
          · right
            exact ⟨g₃, List.mem_cons_of_mem _ hg₃, hc₃⟩

theorem replaceAll_append {pat x : Str} {h₀ : Char} {pr : Str}
    (hpat : pat = h₀ :: pr) (hx : ∀ c ∈ x, c ≠ h₀) :
    replaceAll pat (x ++ pat) = x := by
  induction x with
  | nil =>
    rw [List.nil_append, hpat]
    show replaceAll (h₀ :: pr) (h₀ :: pr) = []
    unfold replaceAll
    rw [if_pos ?_]
    · have hdrop : pr.drop ((h₀ :: pr).length - 1) = [] := by
        simp [List.drop_length]
      rw [hdrop]
      simp [replaceAll]
    · refine ⟨List.isPrefixOf_iff_prefix.mpr (List.prefix_refl _), by simp⟩
  | cons c x ih =>
    have hc : c ≠ h₀ := hx c (List.mem_cons_self c x)
    rw [List.cons_append]
    unfold replaceAll
    rw [if_neg ?_]
    · rw [ih (fun y hy => hx y (List.mem_cons_of_mem _ hy))]
    · rintro ⟨hpre, -⟩
      rw [hpat, List.isPrefixOf_iff_prefix, List.cons_prefix_cons] at hpre
      exact hc hpre.1.symm

theorem hasSuffix_append (suf x : Str) : hasSuffix suf (x ++ suf) = true := by
  unfold hasSuffix
  rw [List.isSuffixOf_iff_suffix]
  exact List.suffix_append x suf

theorem dotsToDashes_no_dot {s : Str} : ∀ c ∈ dotsToDashes s, c ≠ '.' := by
  intro c hc
  rcases List.mem_map.mp hc with ⟨x, hx, hxc⟩
  by_cases hd : x = '.'
  · rw [← hxc]
    simp [hd]
  · rw [← hxc]
    simp only [if_neg hd]
    exact hd

theorem dashesToDots_dotsToDashes {s : Str} (h : ∀ c ∈ s, c ≠ '-') :
    dashesToDots (dotsToDashes s) = s := by
  unfold dashesToDots dotsToDashes
  rw [List.map_map]
  have hcong : ∀ c ∈ s,
      ((fun c => if c = '-' then '.' else c) ∘ fun c => if c = '.' then '-' else c) c =
        id c := by
    intro c hc
    by_cases hd : c = '.'
    · simp [hd]
    · simp [hd, h c hc]
  rw [List.map_congr_left hcong, List.map_id]

theorem ipString_no_dash {a : IpAddr} : ∀ c ∈ ipString a, c ≠ '-' := by
  intro c hc
  cases a with
  | v4 a b cc d =>
    unfold ipString at hc
    rcases List.mem_append.mp hc with h1 | h1
    · exact (natToChars_sep h1).2.1
    · rcases List.mem_cons.mp h1 with h2 | h2
      · rw [h2]
        decide
      · rcases List.mem_append.mp h2 with h3 | h3
        · exact (natToChars_sep h3).2.1
        · rcases List.mem_cons.mp h3 with h4 | h4
          · rw [h4]
            decide
          · rcases List.mem_append.mp h4 with h5 | h5
            · exact (natToChars_sep h5).2.1
            · rcases List.mem_cons.mp h5 with h6 | h6
              · rw [h6]
                decide
              · exact (natToChars_sep h6).2.1
  | v6 hs =>
    unfold ipString at hc
    rcases mem_joinWith hc with h1 | ⟨g, hg, hcg⟩
    · rw [h1]
      decide
    · rcases List.mem_map.mp hg with ⟨x, _, rfl⟩
      exact (natToHexChars_sep hcg).2.1

theorem ipString_v6_no_dot {hs : List Nat} :
    ∀ c ∈ ipString (IpAddr.v6 hs), c ≠ '.' := by
  intro c hc
  unfold ipString at hc
  rcases mem_joinWith hc with h1 | ⟨g, hg, hcg⟩
  · rw [h1]
    decide
  · rcases List.mem_map.mp hg with ⟨x, _, rfl⟩
    exact (natToHexChars_sep hcg).1

theorem parseIP_v4 {a b c d : Nat} (hv : ValidIp (IpAddr.v4 a b c d)) :
    parseIP (ipString (IpAddr.v4 a b c d)) = some (IpAddr.v4 a b c d) := by
  obtain ⟨ha, hb, hc, hd⟩ := hv
  have hsplit : splitOnC '.' (ipString (IpAddr.v4 a b c d)) =
      [natToChars a, natToChars b, natToChars c, natToChars d] := by
    show splitOnC '.'
      (natToChars a ++ '.' :: (natToChars b ++ '.' :: (natToChars c ++ '.' :: natToChars d)))
      = _
    rw [splitOnC_append (fun x hx => (natToChars_sep hx).1),
      splitOnC_append (fun x hx => (natToChars_sep hx).1),
      splitOnC_append (fun x hx => (natToChars_sep hx).1),
      splitOnC_no_sep (fun x hx => (natToChars_sep hx).1)]
  have hfa : parseField (natToChars a) = some a := by
    simp [parseField, parseDec_natToChars, ha]
  have hfb : parseField (natToChars b) = some b := by
    simp [parseField, parseDec_natToChars, hb]
  have hfc : parseField (natToChars c) = some c := by
    simp [parseField, parseDec_natToChars, hc]
  have hfd : parseField (natToChars d) = some d := by
    simp [parseField, parseDec_natToChars, hd]
  simp [parseIP, hsplit, hfa, hfb, hfc, hfd]

theorem parseHexGroups_map {hs : List Nat} (h : ∀ x ∈ hs, x < 65536) :
    parseHexGroups (hs.map natToHexChars) = some hs := by
  induction hs with
  | nil => rfl
  | cons x hs ih =>
    have hx : parseHexField (natToHexChars x) = some x := by
      simp [parseHexField, parseHexRun_natToHexChars, h x (List.mem_cons_self x hs)]
    simp only [List.map_cons, parseHexGroups, hx,
      ih (fun y hy => h y (List.mem_cons_of_mem _ hy))]

theorem parseIP_v6 {hs : List Nat} (hv : ValidIp (IpAddr.v6 hs)) :
    parseIP (ipString (IpAddr.v6 hs)) = some (IpAddr.v6 hs) := by
  obtain ⟨hlen, hbnd⟩ := hv
  have hdot : splitOnC '.' (ipString (IpAddr.v6 hs)) = [ipString (IpAddr.v6 hs)] :=
    splitOnC_no_sep ipString_v6_no_dot
  have hgs : hs.map natToHexChars ≠ [] := by
    intro h0
    rw [List.map_eq_nil_iff] at h0
    rw [h0] at hlen
    simp at hlen
  have hcolon : splitOnC ':' (ipString (IpAddr.v6 hs)) = hs.map natToHexChars := by
    show splitOnC ':' (joinWith ':' (hs.map natToHexChars)) = _
    apply splitOnC_joinWith hgs
    intro g hg x hx
    rcases List.mem_map.mp hg with ⟨y, _, rfl⟩
    exact (natToHexChars_sep hx).2.2
  have hlen8 : (splitOnC ':' (ipString (IpAddr.v6 hs))).length = 8 := by
    rw [hcolon, List.length_map, hlen]
  simp [parseIP, hdot, hlen8, hcolon, parseHexGroups_map hbnd, hlen]

theorem parseIP_ipString {a : IpAddr} (hv : ValidIp a) :
    parseIP (ipString a) = some a := by
  cases a with
  | v4 a b c d => exact parseIP_v4 hv
  | v6 hs => exact parseIP_v6 hv

/-- C9: round-trip of the ingress programming: for every valid IP address,
parseIngress applied to the LoadBalancerIngress record produced by addIngress
returns the address, both in the plain-IP case and in the EPIC-hostname case
where the address is written with dots replaced by dashes followed by the
domain .client.acnodal.io. -/
theorem c9_ingress_roundtrip (a : IpAddr) (hv : ValidIp a) :
    parseIngress (addIngress false a) = some a ∧
    parseIngress (addIngress true a) = some a := by
  have hparse := parseIP_ipString hv
  constructor
  · simp [addIngress, parseIngress, hparse]
  · have hnil : parseIP ([] : Str) = none := by decide
    have hsuffix := hasSuffix_append epicDomain (dotsToDashes (ipString a))
    have hrep : replaceAll epicDomain (dotsToDashes (ipString a) ++ epicDomain) =
        dotsToDashes (ipString a) :=
      replaceAll_append rfl (fun c hc => dotsToDashes_no_dot c hc)
    have hmap : dashesToDots (dotsToDashes (ipString a)) = ipString a :=
      dashesToDots_dotsToDashes ipString_no_dash
    simp [addIngress, parseIngress, hnil, hsuffix, hrep, hmap, hparse]

def wIp4 : IpAddr := IpAddr.v4 1 2 3 4

def wIp6 : IpAddr := IpAddr.v6 [4096, 0, 0, 0, 0, 0, 0, 4]

/-- Witness for C9 at the concrete addresses 1.2.3.4 and 1000::4. -/
theorem c9_witness :
    parseIngress (addIngress false wIp4) = some wIp4 ∧
    parseIngress (addIngress true wIp4) = some wIp4 ∧
    parseIngress (addIngress true wIp6) = some wIp6 := by
  have h4 := c9_ingress_roundtrip wIp4 ⟨by norm_num, by norm_num, by norm_num, by norm_num⟩
  have h6 := c9_ingress_roundtrip wIp6 ⟨rfl, by intro x hx; fin_cases hx <;> norm_num⟩
  exact ⟨h4.1, h4.2, h6.2⟩

/-! Node agent controller, embedded from the lbnodeagent controller source
(src/unnamed/part_000).  The constants Brand and BrandAnnotation live in
pkg/apis/v1, which is not shipped; only their identities matter here. -/

/-- The sync states the controller returns. -/
inductive SyncState where
  | success
  | error
  | reprocessAll
deriving DecidableEq

/-- An announcer as the controller observes it: whether its SetBalancer and
DeleteBalancer calls succeed. -/
structure Announcer where
  setOK : Bool
  deleteOK : Bool
deriving DecidableEq

/-- The calls the controller makes on its announcers, by announcer index. -/
inductive Call where
  | setBalancer (idx : Nat)
  | deleteBalancer (idx : Nat)
deriving DecidableEq

/-- The lbnodeagent controller state: announcer list and service-to-IP map. -/
structure NodeController where
  announcers : List Announcer
  svcIP : List (String × IpAddr)
deriving DecidableEq

/-- The service fields ServiceChanged reads: annotations (none models the Go
nil map) and the LoadBalancer ingress list. -/
structure NodeSvc where
  annots : Option (List (String × String))
  ingress : List IngressRec
deriving DecidableEq

/-- The PureLB brand value (purelbv1.Brand). -/
def purelbBrand : String := "purelb"

/-- The brand annotation key (purelbv1.BrandAnnotation). -/
def brandKey : String := "purelb.io/allocated-by"

/-- deleteBalancer of the controller: every announcer gets a DeleteBalancer
call, the entry is removed from svcIP, and the result is an error when any
announcer fails. -/
def deleteBalancer (c : NodeController) (name : String) :
    SyncState × NodeController × List Call :=
  ((if c.announcers.all (fun a => a.deleteOK) then SyncState.success else SyncState.error),
   { c with svcIP := removeA name c.svcIP },
   (List.range c.announcers.length).map Call.deleteBalancer)

/-- ServiceChanged of the controller: with anything other than exactly one
parseable ingress IP the balancer is deleted; a service whose brand
annotation differs from the PureLB brand is ignored with success; otherwise
every announcer gets a SetBalancer call and the IP is recorded in svcIP. -/
def ServiceChanged (c : NodeController) (name : String) (svc : NodeSvc) :
    SyncState × NodeController × List Call :=
  match svc.ingress with
  | [ing] =>
    match parseIP ing.ip with
    | none => deleteBalancer c name
    | some lbIP =>
      if (match svc.annots with
          | none => false
          | some m => decide ((lookupA brandKey m).getD "" ≠ purelbBrand)) then
        (SyncState.success, c, [])
      else
        ((if c.announcers.all (fun a => a.setOK) then SyncState.success
          else SyncState.error),
         { c with svcIP := setA name lbIP c.svcIP },
         (List.range c.announcers.length).map Call.setBalancer)
  | _ => deleteBalancer c name

/-- C10: the node agent announces only addresses allocated by PureLB: for
every service with one parseable ingress IP whose annotations carry a brand
annotation different from the PureLB brand, ServiceChanged returns success
without invoking any announcer SetBalancer call and without touching the
controller service-to-IP map. -/
theorem c10_foreign_brand (c : NodeController) (name : String) (svc : NodeSvc)
    (m : List (String × String)) (b : String) (ing : IngressRec) (ip : IpAddr)
    (hm : svc.annots = some m) (hb : lookupA brandKey m = some b)
    (hbne : b ≠ purelbBrand) (hing : svc.ingress = [ing])
    (hip : parseIP ing.ip = some ip) :
    ServiceChanged c name svc = (SyncState.success, c, []) := by
  have hcond : decide ((lookupA brandKey m).getD "" ≠ purelbBrand) = true := by
    rw [hb]
    exact decide_eq_true hbne
  simp only [ServiceChanged, hing, hip, hm]
  rw [if_pos hcond]

def wAnnouncer : Announcer := ⟨true, true⟩

def wCtrl : NodeController := ⟨[wAnnouncer], []⟩

def wIngRec : IngressRec := { ip := ipString wIp4, hostname := [] }

def wNodeSvc : NodeSvc := ⟨some [(brandKey, "metallb")], [wIngRec]⟩

/-- Witness for C10 at a concrete service carrying a foreign brand. -/
theorem c10_witness :
    ServiceChanged wCtrl "unit/svc" wNodeSvc = (SyncState.success, wCtrl, []) :=
  c10_foreign_brand wCtrl "unit/svc" wNodeSvc [(brandKey, "metallb")] "metallb"
    wIngRec wIp4 rfl (by decide) (by decide) rfl
    (parseIP_ipString (a := wIp4) ⟨by norm_num, by norm_num, by norm_num, by norm_num⟩)

end PureLB
